import Mathlib

/-!
Verification of the `python-fcm` client library (`src/fcm/firebase_messaging.py`)
against its natural-language specification.

The embedding models Python values that can appear in a send call's keyword
arguments or a decoded JSON document as the inductive `JVal` (JSON-style
values: `None`, booleans, integers, strings, lists, dicts).  Strings are
modelled as `List Char`; dicts as insertion-ordered association lists, which
matches CPython 3.7+ dict semantics used throughout the source.  Fallible
Python code (raised exceptions) is modelled with `Except PyError`.
Floating-point numbers are outside the model: the library never constructs
them and no claim depends on them.
-/

/-- Characters treated as whitespace by the JSON decoder (`json.loads`). -/
def isWs (c : Char) : Bool :=
  c = ' ' ∨ c = '\t' ∨ c = '\n' ∨ c = '\r'

/-- Drop leading JSON whitespace. -/
def skipWs : List Char → List Char
  | [] => []
  | c :: rest => if isWs c then skipWs rest else c :: rest

/-- ASCII decimal digit test. -/
def isDig (c : Char) : Bool :=
  48 ≤ c.toNat ∧ c.toNat ≤ 57

/-- Lowercase hexadecimal digit for a value below 16 (as `json.dumps` emits). -/
def hexDig (n : Nat) : Char :=
  if n < 10 then Char.ofNat (48 + n) else Char.ofNat (87 + n)

/-- Numeric value of a hexadecimal digit character, if it is one. -/
def hexVal (c : Char) : Option Nat :=
  if 48 ≤ c.toNat ∧ c.toNat ≤ 57 then some (c.toNat - 48)
  else if 97 ≤ c.toNat ∧ c.toNat ≤ 102 then some (c.toNat - 87)
  else if 65 ≤ c.toNat ∧ c.toNat ≤ 70 then some (c.toNat - 55)
  else none

/-- Four-digit lowercase hex rendering of `n < 65536`, as in a `\u` escape. -/
def toHex4 (n : Nat) : List Char :=
  [hexDig (n / 4096 % 16), hexDig (n / 256 % 16), hexDig (n / 16 % 16), hexDig (n % 16)]

/-- Combined value of four hex digit characters. -/
def hex4 (a b c d : Char) : Option Nat :=
  match hexVal a, hexVal b, hexVal c, hexVal d with
  | some va, some vb, some vc, some vd => some (va * 4096 + vb * 256 + vc * 16 + vd)
  | _, _, _, _ => none

/-- Python/JSON values: `None`, `bool`, `int`, `str`, `list`, `dict`.
Dicts are insertion-ordered association lists with string keys. -/
inductive JVal where
  | null : JVal
  | bool (b : Bool) : JVal
  | num (n : Int) : JVal
  | str (s : List Char) : JVal
  | arr (xs : List JVal) : JVal
  | obj (fs : List (List Char × JVal)) : JVal

/-- A Python keyword-argument dict / payload attribute dict. -/
abbrev Fields := List (List Char × JVal)

/-- Member-wise induction principle for the nested inductive `JVal`. -/
def JVal.recAll {P : JVal → Prop}
    (hnull : P .null) (hbool : ∀ b, P (.bool b)) (hnum : ∀ n, P (.num n))
    (hstr : ∀ s, P (.str s))
    (harr : ∀ xs, (∀ x ∈ xs, P x) → P (.arr xs))
    (hobj : ∀ fs, (∀ kv ∈ fs, P kv.2) → P (.obj fs)) : ∀ v, P v
  | .null => hnull
  | .bool b => hbool b
  | .num n => hnum n
  | .str s => hstr s
  | .arr xs => harr xs (fun x hx =>
      have : sizeOf x < 1 + sizeOf xs := by
        have h1 := List.sizeOf_lt_of_mem hx
        omega
      JVal.recAll hnull hbool hnum hstr harr hobj x)
  | .obj fs => hobj fs (fun kv hkv =>
      have : sizeOf kv.2 < 1 + sizeOf fs := by
        have h1 := List.sizeOf_lt_of_mem hkv
        have h2 : sizeOf kv.2 < sizeOf kv := by
          obtain ⟨a, b⟩ := kv
          simp only [Prod.mk.sizeOf_spec]
          omega
        omega
      JVal.recAll hnull hbool hnum hstr harr hobj kv.2)
termination_by v => sizeOf v

/-- Decimal digits of a natural number (no leading zeros; `0` is `"0"`). -/
def natDigits (n : Nat) : List Char :=
  if h : n < 10 then [Char.ofNat (48 + n)]
  else natDigits (n / 10) ++ [Char.ofNat (48 + n % 10)]
termination_by n
decreasing_by exact Nat.div_lt_self (by omega) (by omega)

/-- Decimal rendering of a Python `int`, as `json.dumps` emits. -/
def dumpInt : Int → List Char
  | .ofNat m => natDigits m
  | .negSucc m => '-' :: natDigits (m + 1)

/-- `json.dumps` escaping of one character (`ensure_ascii=True` default):
`"` and `\` and the five named control escapes, `\uXXXX` for other
control or non-ASCII characters, surrogate pairs above `0xFFFF`. -/
def escapeChar (c : Char) : List Char :=
  if c = '"' then ['\\', '"']
  else if c = '\\' then ['\\', '\\']
  else if c = '\n' then ['\\', 'n']
  else if c = '\r' then ['\\', 'r']
  else if c = '\t' then ['\\', 't']
  else if c.toNat = 8 then ['\\', 'b']
  else if c.toNat = 12 then ['\\', 'f']
  else if c.toNat < 32 ∨ 126 < c.toNat then
    if c.toNat < 65536 then '\\' :: 'u' :: toHex4 c.toNat
    else '\\' :: 'u' :: toHex4 (55296 + (c.toNat - 65536) / 1024) ++
         '\\' :: 'u' :: toHex4 (56320 + (c.toNat - 65536) % 1024)
  else [c]

/-- Escape a whole string body. -/
def escapeStr : List Char → List Char
  | [] => []
  | c :: cs => escapeChar c ++ escapeStr cs

mutual

/-- `json.dumps` with its default separators `", "` and `": "`. -/
def dumps : JVal → List Char
  | .num n => dumpInt n
  | .null => ['n', 'u', 'l', 'l']
  | .str s => '"' :: escapeStr s ++ ['"']
  | .bool true => ['t', 'r', 'u', 'e']
  | .arr [] => ['[', ']']
  | .bool false => ['f', 'a', 'l', 's', 'e']
  | .arr (x :: xs) => '[' :: (dumps x ++ dumpsArrTail xs) ++ [']']
  | .obj [] => ['\x7b', '\x7d']
  | .obj (kv :: fs) => '\x7b' :: (dumpsEntry kv ++ dumpsObjTail fs) ++ ['\x7d']

/-- Remaining array elements, each preceded by `", "`. -/
def dumpsArrTail : List JVal → List Char
  | [] => []
  | x :: xs => ',' :: ' ' :: (dumps x ++ dumpsArrTail xs)

/-- One object entry `"key": value`. -/
def dumpsEntry : List Char × JVal → List Char
  | (k, v) => '"' :: escapeStr k ++ '"' :: ':' :: ' ' :: dumps v

/-- Remaining object entries, each preceded by `", "`. -/
def dumpsObjTail : List (List Char × JVal) → List Char
  | [] => []
  | kv :: fs => ',' :: ' ' :: (dumpsEntry kv ++ dumpsObjTail fs)

end

/-!
A JSON decoder modelling `json.loads` on the fragment the library produces:
`null`/`true`/`false`, integers, strings with the standard escapes
(including surrogate pairs), arrays and objects, with whitespace skipped at
token boundaries.  Deviations from CPython, none of which are reachable
from `json.dumps` output: floats (and `NaN`/`Infinity`) are rejected,
lone surrogates in `\u` escapes are rejected, and leading zeros in
numbers are accepted.
-/

/-- One-character escapes a JSON string may contain after a backslash. -/
def unescChar (e : Char) : Option Char :=
  if e = '"' then some '"'
  else if e = '\\' then some '\\'
  else if e = '/' then some '/'
  else if e = 'b' then some (Char.ofNat 8)
  else if e = 'f' then some (Char.ofNat 12)
  else if e = 'n' then some '\n'
  else if e = 'r' then some '\r'
  else if e = 't' then some '\t'
  else none

/-- Parse the body of a JSON string after the opening quote, up to and
including the closing quote; returns the decoded body and the rest.
`fuel` bounds the number of decoded characters; it is structural so the
equations rewrite cleanly. -/
def parseStrBodyF : Nat → List Char → Option (List Char × List Char)
  | 0, _ => none
  | _, [] => none
  | f + 1, c :: rest =>
    if c = '"' then some ([], rest)
    else if c = '\\' then
      match rest with
      | [] => none
      | e :: rest2 =>
        if e = 'u' then
          match rest2 with
          | a :: b :: c2 :: d :: rest3 =>
            match hex4 a b c2 d with
            | none => none
            | some n =>
              if 55296 ≤ n ∧ n ≤ 56319 then
                match rest3 with
                | s1 :: s2 :: e2 :: f2 :: g2 :: h2 :: rest4 =>
                  if s1 = '\\' ∧ s2 = 'u' then
                    match hex4 e2 f2 g2 h2 with
                    | none => none
                    | some m =>
                      if 56320 ≤ m ∧ m ≤ 57343 then
                        match parseStrBodyF f rest4 with
                        | some (cs, r) =>
                          some (Char.ofNat (65536 + (n - 55296) * 1024 + (m - 56320)) :: cs, r)
                        | none => none
                      else none
                  else none
                | _ => none
              else if 56320 ≤ n ∧ n ≤ 57343 then none
              else
                match parseStrBodyF f rest3 with
                | some (cs, r) => some (Char.ofNat n :: cs, r)
                | none => none
          | _ => none
        else
          match unescChar e with
          | none => none
          | some c2 =>
            match parseStrBodyF f rest2 with
            | some (cs, r) => some (c2 :: cs, r)
            | none => none
    else
      match parseStrBodyF f rest with
      | some (cs, r) => some (c :: cs, r)
      | none => none

termination_by structural f _ => f

/-- `parseStrBodyF` with enough fuel for its input. -/
def parseStrBody (s : List Char) : Option (List Char × List Char) :=
  parseStrBodyF (s.length + 1) s

/-- Consume decimal digits, accumulating their value. -/
def digitsLoop (acc : Nat) : List Char → Nat × List Char
  | [] => (acc, [])
  | c :: rest =>
    if isDig c then digitsLoop (acc * 10 + (c.toNat - 48)) rest else (acc, c :: rest)

/-- After an integer's digits, the next character must not extend the number
(else Python would parse a float, which is outside the model). -/
def numSafe : List Char → Bool
  | [] => true
  | c :: _ => !(isDig c || c = '.' || c = 'e' || c = 'E')

/-- Parse a JSON integer. -/
def parseNum : List Char → Option (JVal × List Char)
  | [] => none
  | c :: rest =>
    if c = '-' then
      match rest with
      | [] => none
      | d :: rest2 =>
        if isDig d then
          match digitsLoop (d.toNat - 48) rest2 with
          | (n, r) => if numSafe r then some (.num (-(n : Int)), r) else none
        else none
    else if isDig c then
      match digitsLoop (c.toNat - 48) rest with
      | (n, r) => if numSafe r then some (.num (n : Int), r) else none
    else none

/-- `true` when the list starts with the given character. -/
def headIs (l : List Char) (c : Char) : Bool :=
  match l with
  | [] => false
  | c2 :: _ => c2 = c

/-- Parse one JSON value at the head of the input (no leading whitespace),
parameterized by the parsers used for nested constructs. -/
def parseValCore (pv : List Char → Option (JVal × List Char))
    (pa : List Char → Option (List JVal × List Char))
    (pe : List Char → Option ((List Char × JVal) × List Char))
    (po : List Char → Option (List (List Char × JVal) × List Char)) :
    List Char → Option (JVal × List Char)
  | [] => none
  | c :: rest =>
    if c = '"' then
      match parseStrBody rest with
      | some (cs, r) => some (.str cs, r)
      | none => none
    else if c = '[' then
      if headIs (skipWs rest) ']' then some (.arr [], (skipWs rest).tail)
      else
        match pv rest with
        | some (v, r1) =>
          match pa r1 with
          | some (vs, r2) => some (.arr (v :: vs), r2)
          | none => none
        | none => none
    else if c = '\x7b' then
      if headIs (skipWs rest) '\x7d' then some (.obj [], (skipWs rest).tail)
      else
        match pe rest with
        | some (kv, r1) =>
          match po r1 with
          | some (fs, r2) => some (.obj (kv :: fs), r2)
          | none => none
        | none => none
    else if c = 'n' then
      match rest with
      | 'u' :: 'l' :: 'l' :: r => some (.null, r)
      | _ => none
    else if c = 't' then
      match rest with
      | 'r' :: 'u' :: 'e' :: r => some (.bool true, r)
      | _ => none
    else if c = 'f' then
      match rest with
      | 'a' :: 'l' :: 's' :: 'e' :: r => some (.bool false, r)
      | _ => none
    else parseNum (c :: rest)

mutual

/-- Parse one JSON value, skipping leading whitespace.  `fuel` bounds the
nesting work; every recursive step decreases it. -/
def parseVal : Nat → List Char → Option (JVal × List Char)
  | 0, _ => none
  | f + 1, s =>
    parseValCore (parseVal f) (parseArrTail f) (parseEntry f) (parseObjTail f) (skipWs s)
termination_by f _ => (f, 1)

/-- Parse the remainder of a JSON array after its first element: a
`,`-separated element list closed by `]`. -/
def parseArrTail : Nat → List Char → Option (List JVal × List Char)
  | 0, _ => none
  | f + 1, s =>
    match skipWs s with
    | ']' :: rest => some ([], rest)
    | ',' :: rest =>
      match parseVal f rest with
      | some (v, r1) =>
        match parseArrTail f r1 with
        | some (vs, r2) => some (v :: vs, r2)
        | none => none
      | none => none
    | _ => none
termination_by f _ => (f, 1)

/-- Parse one `"key": value` object entry, skipping leading whitespace. -/
def parseEntry : Nat → List Char → Option ((List Char × JVal) × List Char)
  | 0, _ => none
  | f + 1, s =>
    match skipWs s with
    | '"' :: rest =>
      match parseStrBody rest with
      | some (k, r1) =>
        match skipWs r1 with
        | ':' :: r2 =>
          match parseVal f r2 with
          | some (v, r3) => some ((k, v), r3)
          | none => none
        | _ => none
      | none => none
    | _ => none
termination_by f _ => (f, 1)

/-- Parse the remainder of a JSON object after its first entry. -/
def parseObjTail : Nat → List Char → Option (List (List Char × JVal) × List Char)
  | 0, _ => none
  | f + 1, s =>
    match skipWs s with
    | '\x7d' :: rest => some ([], rest)
    | ',' :: rest =>
      match parseEntry f rest with
      | some (kv, r1) =>
        match parseObjTail f r1 with
        | some (fs, r2) => some (kv :: fs, r2)
        | none => none
      | none => none
    | _ => none
termination_by f _ => (f, 1)

end

/-- `json.loads`: decode a complete document; fails on trailing garbage. -/
def jsonLoads (s : List Char) : Option JVal :=
  match parseVal (s.length + 1) s with
  | some (v, rest) => if (skipWs rest).isEmpty then some v else none
  | none => none

mutual

/-- Fuel needed by `parseVal` to decode `dumps v`. -/
def sizeJ : JVal → Nat
  | .arr [] => 1
  | .arr (x :: xs) => 1 + max (sizeJ x) (sizeA xs)
  | .obj [] => 1
  | .obj (kv :: fs) => 1 + max (1 + sizeJ kv.2) (sizeO fs)
  | _ => 1

/-- Fuel needed by `parseArrTail` for the remaining elements. -/
def sizeA : List JVal → Nat
  | [] => 1
  | x :: xs => 1 + max (sizeJ x) (sizeA xs)

/-- Fuel needed by `parseObjTail` for the remaining entries. -/
def sizeO : List (List Char × JVal) → Nat
  | [] => 1
  | kv :: fs => 1 + max (1 + sizeJ kv.2) (sizeO fs)

end

/-!
Python-semantics helpers used by the reconciliation code: truthiness,
hashability, dict operations on scalar keys, iteration for `zip`.
-/

/-- Raised Python exceptions the library can produce.  The first four model
the `FCMException` subclasses declared at the bottom of the source; the
rest model built-in exceptions escaping from buggy paths. -/
inductive PyError where
  | fcmTooManyRegIds (msg : String)
  | fcmMalformedJson (msg : String)
  | fcmAuthentication (msg : String)
  | fcmInternal (msg : String)
  | typeError
  | keyError (k : List Char)
  | attributeError
  | jsonDecodeError
deriving DecidableEq

/-- Python truthiness of a value (`if value:`). -/
def pyTruthy : JVal → Bool
  | .null => false
  | .bool b => b
  | .num n => n ≠ 0
  | .str s => !s.isEmpty
  | .arr xs => !xs.isEmpty
  | .obj fs => !fs.isEmpty

/-- Truthiness of an optional value (`dict.get` result, absent ↦ `None`). -/
def optTruthy : Option JVal → Bool
  | none => false
  | some v => pyTruthy v

/-- Whether a value may be used as a dict key (lists and dicts are not
hashable and raise `TypeError`). -/
def hashable : JVal → Bool
  | .arr _ => false
  | .obj _ => false
  | _ => true

/-- Python `bool` keys compare equal to the matching ints (`True == 1`). -/
def keyNorm : JVal → JVal
  | .bool b => .num (if b then 1 else 0)
  | v => v

/-- Python `==` on hashable (scalar) values. -/
def pyEqScalar (a b : JVal) : Bool :=
  match keyNorm a, keyNorm b with
  | .null, .null => true
  | .num m, .num n => m = n
  | .str s, .str t => s = t
  | _, _ => false

/-- First-match lookup in an attribute/kwargs dict (keys are unique in
every dict the source builds, so this is plain dict lookup). -/
def lookupF (fs : Fields) (k : List Char) : Option JVal :=
  match fs with
  | [] => none
  | (k2, v) :: rest => if k2 = k then some v else lookupF rest k

/-- Key-membership test for an attribute/kwargs dict. -/
def memKeyF (fs : Fields) (k : List Char) : Bool :=
  match fs with
  | [] => false
  | (k2, _) :: rest => if k2 = k then true else memKeyF rest k

/-- Dict item assignment `d[k] = v`: overwrite in place or append. -/
def setField (fs : Fields) (k : List Char) (v : JVal) : Fields :=
  match fs with
  | [] => [(k, v)]
  | (k2, v2) :: rest => if k2 = k then (k2, v) :: rest else (k2, v2) :: setField rest k v

/-- Dict `pop(k)`: remove the key's entry. -/
def eraseField (fs : Fields) (k : List Char) : Fields :=
  fs.filter (fun kv => kv.1 ≠ k)

/-- Python `len()` on a value, when the value is sized. -/
def pyLen : JVal → Option Nat
  | .str s => some s.length
  | .arr xs => some xs.length
  | .obj fs => some fs.length
  | _ => none

/-- Iterate a value, as `zip` does with its arguments: lists yield their
elements, strings their characters, dicts their keys; scalars raise
`TypeError`. -/
def pyIter : JVal → Except PyError (List JVal)
  | .arr xs => .ok xs
  | .str s => .ok (s.map (fun c => .str [c]))
  | .obj fs => .ok (fs.map (fun kv => .str kv.1))
  | .null => .error .typeError
  | .bool _ => .error .typeError
  | .num _ => .error .typeError

/-- Iterate an optional value; `zip(None, ...)` raises `TypeError`. -/
def pyIterOpt : Option JVal → Except PyError (List JVal)
  | none => .error .typeError
  | some v => pyIter v

/-- Occurrence of `needle` as a contiguous sublist of `hay`
(Python `in` on strings). -/
def listSub (needle hay : List Char) : Bool :=
  match hay with
  | [] => needle.isEmpty
  | _ :: rest => needle.isPrefixOf hay || listSub needle rest

/-- Python `key in res` for the containers a results entry can be. -/
def pyContains (key : List Char) : JVal → Except PyError Bool
  | .obj fs => .ok (memKeyF fs key)
  | .arr xs => .ok (xs.any (fun x =>
      match x with
      | .str s => s = key
      | _ => false))
  | .str s => .ok (listSub key s)
  | .null => .error .typeError
  | .bool _ => .error .typeError
  | .num _ => .error .typeError

/-- Python subscript `v[key]` with a string key. -/
def getItem (v : JVal) (key : List Char) : Except PyError JVal :=
  match v with
  | .obj fs =>
    match lookupF fs key with
    | some x => .ok x
    | none => .error (.keyError key)
  | _ => .error .typeError

/-- A Python dict whose keys and values are arbitrary (hashable) values:
built by `dict(filtered)` and `defaultdict(list)` in the reconciler. -/
abbrev Grouping := List (JVal × JVal)

/-- Membership of a key in a `Grouping`, by Python equality. -/
def memAssocG (k : JVal) (g : Grouping) : Bool :=
  g.any (fun p => pyEqScalar p.1 k)

/-- Dict assignment on a `Grouping`: Python keeps the original key object
and its position on overwrite. -/
def setAssoc (k v : JVal) : Grouping → Grouping
  | [] => [(k, v)]
  | (k2, v2) :: rest =>
    if pyEqScalar k2 k then (k2, v) :: rest else (k2, v2) :: setAssoc k v rest

/-- `dict(filtered)`: fold item assignment left to right, raising
`TypeError` on an unhashable key. -/
def buildDictAux (acc : Grouping) : List (JVal × JVal) → Except PyError Grouping
  | [] => .ok acc
  | (k, v) :: rest =>
    if hashable k then buildDictAux (setAssoc k v acc) rest else .error .typeError

/-- `grouping[reason].append(rid)` on a `defaultdict(list)` keyed by the
error reason, modelled with the group's ids as a Lean list. -/
def appendGroup (reason rid : JVal) : List (JVal × List JVal) → List (JVal × List JVal)
  | [] => [(reason, [rid])]
  | (r, ids) :: rest =>
    if pyEqScalar r reason then (r, ids ++ [rid]) :: rest
    else (r, ids) :: appendGroup reason rid rest

/-- The reason-grouping loop of `groupResponseResult`, raising `TypeError`
on an unhashable reason. -/
def buildGroupsAux (acc : List (JVal × List JVal)) :
    List (JVal × JVal) → Except PyError (List (JVal × List JVal))
  | [] => .ok acc
  | (rid, v) :: rest =>
    if hashable v then buildGroupsAux (appendGroup v rid acc) rest else .error .typeError

/-- The generator expression
`((reg_id, res[key]) for reg_id, res in mapping if key in res)`, as consumed
in order by `dict(...)` or the grouping loop. -/
def collectFiltered (key : List Char) : List (JVal × JVal) → Except PyError (List (JVal × JVal))
  | [] => .ok []
  | (rid, res) :: rest =>
    match pyContains key res with
    | .error e => .error e
    | .ok b =>
      if b then
        match getItem res key with
        | .error e => .error e
        | .ok v =>
          match collectFiltered key rest with
          | .error e => .error e
          | .ok tail => .ok ((rid, v) :: tail)
      else collectFiltered key rest

/-!
The library itself: payload validation and building (`Payload`,
`JsonPayload`, `PlainTextPayload`), the transport status mapping
(`makeRequest`), the reconciler (`handleJSONResponse`,
`groupResponseResult`) and the facade send operations.  Logging is
observability-only in the source (guarded `self.log` calls with no effect
on control flow or results) and is not modelled.
-/

/-- The `registration_ids` kwargs/dict key. -/
def regIdsKey : List Char := ("registration_ids").data

/-- The `to` kwargs key. -/
def toKey : List Char := ("to").data

/-- The `data` kwargs key. -/
def dataKey : List Char := ("data").data

/-- The `results` key of a provider response. -/
def resultsKey : List Char := ("results").data

/-- The `error` key of a results entry. -/
def errKey : List Char := ("error").data

/-- The `registration_id` key of a results entry. -/
def regIdKey : List Char := ("registration_id").data

/-- The `message_id` key of a results entry. -/
def midKey : List Char := ("message_id").data

/-- The `errors` key of a reconciled result. -/
def errorsKey : List Char := ("errors").data

/-- The `canonical` key of a reconciled result. -/
def canonicalKey : List Char := ("canonical").data

/-- The `success` key of a reconciled result. -/
def successKey : List Char := ("success").data

/-- The prefix used for flattened plain-text data keys. -/
def dataDot : List Char := ("data.").data

/-- Message of `FCMTooManyRegIdsException`. -/
def tooManyMsg : String :=
  "Exceded number of reigstration ids. Only 1000 per request allowed"

/-- Message of the 400 branch of `makeRequest`. -/
def msg400 : String :=
  "Error 400: The request could not be parsed as JSON, or it contained invalid fields."

/-- Message of the 401 branch of `makeRequest`. -/
def msg401 : String :=
  "Error 401: There was an error authenticating the sender account."

/-- Message of the 503 branch of `makeRequest`. -/
def msg503 : String :=
  "The Firebsase Messaging server is temporarily unavailable"

/-- Message of the catch-all branch of `makeRequest`.  The numeric status
code appears only in the log line, not in the raised exception. -/
def msgOther : String :=
  "There was an internal error in the FCM connection server while trying to process the request"

/-- `Payload.validate_registration_ids`: `len(value) > 1000` raises
`FCMTooManyRegIdsException`; `len` of an unsized value raises `TypeError`. -/
def validate_registration_ids (v : JVal) : Except PyError Unit :=
  match pyLen v with
  | some n => if n > 1000 then .error (.fcmTooManyRegIds tooManyMsg) else .ok ()
  | none => .error .typeError

/-- `Payload.validate`: probe each option for a validator; only
`registration_ids` has one. -/
def validateFields : Fields → Except PyError Unit
  | [] => .ok ()
  | (k, v) :: rest =>
    if k = regIdsKey then
      match validate_registration_ids v with
      | .ok _ => validateFields rest
      | .error e => .error e
    else validateFields rest

/-- `JsonPayload.body`: `json.dumps(self.__dict__)`. -/
def jsonPayloadBody (fs : Fields) : List Char :=
  dumps (.obj fs)

/-- `PlainTextPayload.body`: when `registration_ids` is absent the source
pops it with default `None` and assigns the result back, adding the key
with value `None`; then `data` is popped (raising `KeyError` when absent)
and its entries are flattened to `data.<key>` top-level entries. -/
def plainTextPayloadBody (fs : Fields) : Except PyError Fields :=
  let fs1 := if memKeyF fs regIdsKey then fs else setField fs regIdsKey .null
  match lookupF fs1 dataKey with
  | none => .error (.keyError dataKey)
  | some dv =>
    let fs2 := eraseField fs1 dataKey
    match dv with
    | .obj dfs => .ok (dfs.foldl (fun acc kv => setField acc (dataDot ++ kv.1) kv.2) fs2)
    | _ => .error .attributeError

/-- A built payload body: serialized JSON text, or the flat dict that
`requests` form-encodes. -/
inductive PayloadBody where
  | jsonStr (s : List Char)
  | form (fs : Fields)

/-- `FirebaseMessaging.createPayLoad`: construct the payload object
(running validation in `Payload.__init__`) and take its `body`. -/
def createPayLoad (is_json : Bool) (kwargs : Fields) : Except PyError PayloadBody :=
  match validateFields kwargs with
  | .error e => .error e
  | .ok _ =>
    if is_json then .ok (.jsonStr (jsonPayloadBody kwargs))
    else
      match plainTextPayloadBody kwargs with
      | .ok fs => .ok (.form fs)
      | .error e => .error e

/-- An HTTP response from the provider, as the transport sees it. -/
structure HttpResponse where
  status : Nat
  content : List Char

/-- What `makeRequest` hands back on HTTP 200: a decoded JSON document or
the raw body bytes. -/
inductive PyVal where
  | jval (v : JVal)
  | bytes (s : List Char)

/-- `response.json()`. -/
def responseJson (r : HttpResponse) : Except PyError JVal :=
  match jsonLoads r.content with
  | some v => .ok v
  | none => .error .jsonDecodeError

/-- `FirebaseMessaging.makeRequest` after the POST returns: map the HTTP
status.  200 returns the (decoded) body; 400, 401 raise their dedicated
exceptions; 503 and every other status raise `FCMInternalException`.  The
response body is only touched in the 200 branch. -/
def makeRequest (resp : HttpResponse) (is_json : Bool) : Except PyError PyVal :=
  if resp.status = 200 then
    if is_json then
      match responseJson resp with
      | .ok v => .ok (.jval v)
      | .error e => .error e
    else .ok (.bytes resp.content)
  else if resp.status = 400 then .error (.fcmMalformedJson msg400)
  else if resp.status = 401 then .error (.fcmAuthentication msg401)
  else if resp.status = 503 then .error (.fcmInternal msg503)
  else .error (.fcmInternal msgOther)

/-- `FirebaseMessaging.groupResponseResult`: zip the recipient ids with
`response['results']`, filter the entries containing `key`, then group —
`dict(...)` for `registration_id`/`message_id`, a `defaultdict(list)`
keyed by the value for `error` (whose `.items()` is modelled as the
association list itself, list values becoming `JVal.arr`).  Returns
`none` for an empty grouping (`grouping or None`). -/
def groupResponseResult (response : JVal) (reg_ids : Option JVal) (key : List Char) :
    Except PyError (Option Grouping) :=
  match getItem response resultsKey with
  | .error e => .error e
  | .ok results =>
    match pyIterOpt reg_ids with
    | .error e => .error e
    | .ok ridList =>
      match pyIter results with
      | .error e => .error e
      | .ok resList =>
        let pairs := List.zip ridList resList
        match collectFiltered key pairs with
        | .error e => .error e
        | .ok filtered =>
          if key = regIdKey ∨ key = midKey then
            match buildDictAux [] filtered with
            | .error e => .error e
            | .ok d => .ok (if d.isEmpty then none else some d)
          else
            match buildGroupsAux [] filtered with
            | .error e => .error e
            | .ok g =>
              let g2 := g.map (fun p => (p.1, JVal.arr p.2))
              .ok (if g2.isEmpty then none else some g2)

/-- A reconciled result: the Python dict with its up-to-three keys in
insertion order. -/
abbrev Reconciled := List (List Char × Grouping)

/-- The grouping half of `FirebaseMessaging.handleJSONResponse`: group the
three result keys against the resolved recipient sequence and include
each nonempty group, in the order `errors`, `canonical`, `success`. -/
def reconcileGroups (response : JVal) (reg_ids : Option JVal) : Except PyError Reconciled :=
  match groupResponseResult response reg_ids errKey with
  | .error e => .error e
  | .ok errors =>
    match groupResponseResult response reg_ids regIdKey with
    | .error e => .error e
    | .ok canonical =>
      match groupResponseResult response reg_ids midKey with
      | .error e => .error e
      | .ok success =>
        .ok ((match errors with
              | some g => [(errorsKey, g)]
              | none => []) ++
             (match canonical with
              | some g => [(canonicalKey, g)]
              | none => []) ++
             (match success with
              | some g => [(successKey, g)]
              | none => []))

/-- `FirebaseMessaging.handleJSONResponse`: pick the recipient sequence
from the kwargs (`[to]` when `to` is truthy and `registration_ids` is
falsy), then group the three result keys. -/
def handleJSONResponse (response : JVal) (kwargs : Fields) : Except PyError Reconciled :=
  let reg_ids0 := lookupF kwargs regIdsKey
  let toV := lookupF kwargs toKey
  let reg_ids :=
    match toV with
    | some tv => if pyTruthy tv && !optTruthy reg_ids0 then some (.arr [tv]) else reg_ids0
    | none => reg_ids0
  reconcileGroups response reg_ids

/-- `FirebaseMessaging.sendData`: build the JSON payload, POST it, decode
and reconcile.  The transport's response is a parameter: the claims about
"no network I/O" are stated as independence from it. -/
def sendData (kwargs : Fields) (resp : HttpResponse) : Except PyError Reconciled :=
  match createPayLoad true kwargs with
  | .error e => .error e
  | .ok _ =>
    match makeRequest resp true with
    | .error e => .error e
    | .ok (.jval response) => handleJSONResponse response kwargs
    | .ok (.bytes _) => .error .typeError

/-- `FirebaseMessaging.sendNotification` simply delegates to `sendData`. -/
def sendNotification (kwargs : Fields) (resp : HttpResponse) : Except PyError Reconciled :=
  sendData kwargs resp

/-- `FirebaseMessaging.sendPlainText`: build the plain-text payload, POST
it, and fall through — the Python function body ends in `pass`, so it
returns `None` (modelled as `Option.none`), discarding `makeRequest`'s
return value. -/
def sendPlainText (kwargs : Fields) (resp : HttpResponse) : Except PyError (Option PyVal) :=
  match createPayLoad false kwargs with
  | .error e => .error e
  | .ok _ =>
    match makeRequest resp false with
    | .error e => .error e
    | .ok _ => .ok none

/-!
Observation helpers used only in statements and proofs (not part of the
library model): association-list lookup by Python key equality, and
first-seen deduplication, used to phrase the grouping-order properties.
-/

/-- Lookup in a reason grouping by Python key equality. -/
def lookupG (k : JVal) : List (JVal × List JVal) → Option (List JVal)
  | [] => none
  | (k2, ids) :: rest => if pyEqScalar k2 k then some ids else lookupG k rest

/-- The ids grouped under key `k` (empty when the key is absent). -/
def getG (k : JVal) (g : List (JVal × List JVal)) : List JVal :=
  (lookupG k g).getD []

/-- Membership of a key in a reason grouping. -/
def memG (k : JVal) (g : List (JVal × List JVal)) : Bool :=
  (lookupG k g).isSome

/-- First occurrences of the elements not in `seen`, in first-seen order. -/
def firstSeenAux (seen : List (List Char)) : List (List Char) → List (List Char)
  | [] => []
  | r :: rest => if r ∈ seen then firstSeenAux seen rest else r :: firstSeenAux (r :: seen) rest

/-- Distinct elements of a list in first-seen order. -/
def firstSeen (l : List (List Char)) : List (List Char) :=
  firstSeenAux [] l

/-!
Shared lemmas about the dict and validation helpers.
-/

theorem lookupF_mem {fs : Fields} {k : List Char} {v : JVal}
    (h : lookupF fs k = some v) : (k, v) ∈ fs := by
  induction fs with
  | nil => simp [lookupF] at h
  | cons kv rest ih =>
    obtain ⟨k2, v2⟩ := kv
    by_cases hk : k2 = k
    · subst hk
      simp [lookupF] at h
      simp [h]
    · simp [lookupF, hk] at h
      exact List.mem_cons_of_mem _ (ih h)

theorem lookupF_none_of_not_mem {fs : Fields} {k : List Char}
    (h : ∀ kv ∈ fs, kv.1 ≠ k) : lookupF fs k = none := by
  induction fs with
  | nil => rfl
  | cons kv rest ih =>
    obtain ⟨k2, v2⟩ := kv
    have hne : k2 ≠ k := h (k2, v2) (by simp)
    simp only [lookupF, if_neg hne]
    exact ih (fun kv hkv => h kv (List.mem_cons_of_mem _ hkv))

theorem not_mem_of_lookupF_none {fs : Fields} {k : List Char}
    (h : lookupF fs k = none) : ∀ kv ∈ fs, kv.1 ≠ k := by
  induction fs with
  | nil => simp
  | cons kv rest ih =>
    obtain ⟨k2, v2⟩ := kv
    by_cases hk : k2 = k
    · subst hk; simp [lookupF] at h
    · simp only [lookupF, if_neg hk] at h
      intro kv2 hkv2
      rcases List.mem_cons.mp hkv2 with rfl | hkv2
      · exact hk
      · exact ih h kv2 hkv2

theorem memKeyF_false_iff {fs : Fields} {k : List Char} :
    memKeyF fs k = false ↔ ∀ kv ∈ fs, kv.1 ≠ k := by
  induction fs with
  | nil => simp [memKeyF]
  | cons kv rest ih =>
    obtain ⟨k2, v2⟩ := kv
    by_cases hk : k2 = k
    · subst hk
      simp only [memKeyF, if_pos rfl]
      constructor
      · intro h; exact absurd h (by simp)
      · intro h; exact absurd rfl (h (k2, v2) (List.mem_cons_self _ _))
    · simp only [memKeyF, if_neg hk, ih]
      constructor
      · intro h kv2 hkv2
        rcases List.mem_cons.mp hkv2 with rfl | hkv2
        · exact hk
        · exact h kv2 hkv2
      · intro h kv2 hkv2
        exact h kv2 (List.mem_cons_of_mem _ hkv2)

theorem validateFields_ok_of_no_validator {fs : Fields}
    (h : ∀ kv ∈ fs, kv.1 ≠ regIdsKey) : validateFields fs = .ok () := by
  induction fs with
  | nil => rfl
  | cons kv rest ih =>
    obtain ⟨k, v⟩ := kv
    simp only [validateFields, if_neg (h (k, v) (by simp))]
    exact ih (fun kv hkv => h kv (List.mem_cons_of_mem _ hkv))

theorem validateFields_ok_of_entries {fs : Fields}
    (h : ∀ kv ∈ fs, kv.1 = regIdsKey → validate_registration_ids kv.2 = .ok ()) :
    validateFields fs = .ok () := by
  induction fs with
  | nil => rfl
  | cons kv rest ih =>
    obtain ⟨k, v⟩ := kv
    simp only [validateFields]
    by_cases hk : k = regIdsKey
    · rw [if_pos hk, h (k, v) (by simp) hk]
      exact ih (fun kv hkv hr => h kv (List.mem_cons_of_mem _ hkv) hr)
    · rw [if_neg hk]
      exact ih (fun kv hkv hr => h kv (List.mem_cons_of_mem _ hkv) hr)

theorem validateFields_eq_of_lookup {fs : Fields} {v : JVal}
    (hnd : (fs.map Prod.fst).Nodup) (hlk : lookupF fs regIdsKey = some v) :
    validateFields fs = validate_registration_ids v := by
  induction fs with
  | nil => simp [lookupF] at hlk
  | cons kv rest ih =>
    obtain ⟨k, v2⟩ := kv
    by_cases hk : k = regIdsKey
    · subst hk
      have hv2 : v2 = v := by simpa [lookupF] using hlk
      subst hv2
      have hrest : ∀ kv ∈ rest, kv.1 ≠ regIdsKey := by
        intro kv hkv heq
        have : regIdsKey ∈ rest.map Prod.fst := by
          rw [← heq]; exact List.mem_map_of_mem _ hkv
        simp only [List.map_cons, List.nodup_cons] at hnd
        exact hnd.1 this
      simp only [validateFields, if_pos rfl]
      rw [validateFields_ok_of_no_validator hrest]
      cases validate_registration_ids v2 with
      | ok u => cases u; rfl
      | error e => rfl
    · simp only [lookupF, if_neg hk] at hlk
      simp only [validateFields, if_neg hk]
      simp only [List.map_cons, List.nodup_cons] at hnd
      exact ih hnd.2 hlk

/-!
Claim C1 — transport status mapping.
-/

/-- Claim C1, counterexample.  HTTP 503 raises `FCMInternalException` —
the same error kind as every other unexpected status, not a distinct
"provider unavailable" kind — and two distinct unexpected statuses (500,
502) raise identical errors, so the error does not carry the original
numeric status code (it appears only in the log line). -/
theorem makeRequest_503_same_kind_as_internal :
    makeRequest ⟨503, []⟩ true = .error (.fcmInternal msg503)
    ∧ makeRequest ⟨500, []⟩ true = makeRequest ⟨502, []⟩ true := by
  exact ⟨rfl, rfl⟩

/-- Claim C1 (amended): HTTP 401 surfaces as `FCMAuthenticationException`
regardless of response body content; 503 surfaces as
`FCMInternalException` with the "temporarily unavailable" message (the
same error kind as the catch-all); every status outside
{200, 400, 401, 503} surfaces as `FCMInternalException` with a fixed
message that does not include the status code. -/
theorem makeRequest_status_mapping (resp : HttpResponse) (isJ : Bool) :
    (resp.status = 401 → makeRequest resp isJ = .error (.fcmAuthentication msg401))
    ∧ (resp.status = 503 → makeRequest resp isJ = .error (.fcmInternal msg503))
    ∧ (resp.status ≠ 200 → resp.status ≠ 400 → resp.status ≠ 401 → resp.status ≠ 503 →
        makeRequest resp isJ = .error (.fcmInternal msgOther)) := by
  refine ⟨?_, ?_, ?_⟩
  · intro h; simp [makeRequest, h]
  · intro h; simp [makeRequest, h]
  · intro h200 h400 h401 h503
    simp [makeRequest, h200, h400, h401, h503]

/-- Claim C1, witness. -/
theorem makeRequest_status_mapping_witness :
    makeRequest ⟨401, ("this body is not json").data⟩ true = .error (.fcmAuthentication msg401)
    ∧ makeRequest ⟨503, []⟩ false = .error (.fcmInternal msg503)
    ∧ makeRequest ⟨500, []⟩ true = .error (.fcmInternal msgOther) :=
  ⟨(makeRequest_status_mapping ⟨401, ("this body is not json").data⟩ true).1 rfl,
   (makeRequest_status_mapping ⟨503, []⟩ false).2.1 rfl,
   (makeRequest_status_mapping ⟨500, []⟩ true).2.2 (by decide) (by decide) (by decide) (by decide)⟩

/-!
Claim C2 — `sendPlainText` and the response body.
-/

/-- Claim C2: the source's `sendPlainText` discards `makeRequest`'s return
value and ends in `pass`, so a successful plain-text send returns `None`,
not the raw provider response body (`"id=123"` here). -/
theorem sendPlainText_returns_none :
    sendPlainText [(toKey, .str ("R1").data), (dataKey, .obj [(("k").data, .str ("v").data)])]
      ⟨200, ("id=123").data⟩ = .ok none := by
  rfl

/-!
Claim C3 — recipient-count validation.
-/

/-- Claim C3, counterexample: a plain-text send with a one-element
`registration_ids` list (well under 1000) and no `data` field fails at
payload building with `KeyError`, so "length ≤ 1000 implies payload
building succeeds" does not hold for every send call. -/
theorem createPayLoad_small_list_can_fail :
    createPayLoad false [(regIdsKey, .arr [.str ("R1").data])] = .error (.keyError dataKey) := by
  rfl

/-- Claim C3 (amended): with a `registration_ids` list of length ≤ 1000
the validation passes and JSON payload building succeeds (plain-text
building additionally requires a `data` field); with length > 1000 every
payload build and both send operations fail with
`FCMTooManyRegIdsException`, independently of the transport's response
(no HTTP request is issued) and before serialization (the plain-text
build fails with this error even when the `data` field is absent). -/
theorem registration_ids_validation (fs : Fields) (rids : List JVal)
    (hnd : (fs.map Prod.fst).Nodup)
    (hlk : lookupF fs regIdsKey = some (.arr rids)) :
    (rids.length ≤ 1000 → createPayLoad true fs = .ok (.jsonStr (jsonPayloadBody fs)))
    ∧ (1000 < rids.length →
        createPayLoad true fs = .error (.fcmTooManyRegIds tooManyMsg)
        ∧ createPayLoad false fs = .error (.fcmTooManyRegIds tooManyMsg)
        ∧ (∀ resp, sendData fs resp = .error (.fcmTooManyRegIds tooManyMsg))
        ∧ (∀ resp, sendPlainText fs resp = .error (.fcmTooManyRegIds tooManyMsg))) := by
  have hv := validateFields_eq_of_lookup hnd hlk
  constructor
  · intro hle
    have : validateFields fs = .ok () := by
      rw [hv]
      simp [validate_registration_ids, pyLen, Nat.not_lt.mpr hle]
    simp [createPayLoad, this]
  · intro hgt
    have herr : validateFields fs = .error (.fcmTooManyRegIds tooManyMsg) := by
      rw [hv]
      simp [validate_registration_ids, pyLen, hgt]
    refine ⟨?_, ?_, ?_, ?_⟩
    · simp [createPayLoad, herr]
    · simp [createPayLoad, herr]
    · intro resp; simp [sendData, createPayLoad, herr]
    · intro resp; simp [sendPlainText, createPayLoad, herr]

/-- Claim C3, witness. -/
theorem registration_ids_validation_witness :
    createPayLoad true [(regIdsKey, .arr [.str ("R1").data])]
      = .ok (.jsonStr (jsonPayloadBody [(regIdsKey, .arr [.str ("R1").data])]))
    ∧ createPayLoad true [(regIdsKey, .arr (List.replicate 1001 (.str ("R").data)))]
      = .error (.fcmTooManyRegIds tooManyMsg)
    ∧ sendPlainText [(regIdsKey, .arr (List.replicate 1001 (.str ("R").data)))] ⟨200, []⟩
      = .error (.fcmTooManyRegIds tooManyMsg) :=
  ⟨(registration_ids_validation [(regIdsKey, .arr [.str ("R1").data])]
      [.str ("R1").data] (by simp) rfl).1 (by norm_num),
   ((registration_ids_validation [(regIdsKey, .arr (List.replicate 1001 (.str ("R").data)))]
      (List.replicate 1001 (.str ("R").data))
      (by simp only [List.map_cons, List.map_nil]; exact List.nodup_singleton _) rfl).2
      (by rw [List.length_replicate]; norm_num)).1,
   ((registration_ids_validation [(regIdsKey, .arr (List.replicate 1001 (.str ("R").data)))]
      (List.replicate 1001 (.str ("R").data))
      (by simp only [List.map_cons, List.map_nil]; exact List.nodup_singleton _) rfl).2
      (by rw [List.length_replicate]; norm_num)).2.2.2 ⟨200, []⟩⟩

/-!
Claim C9 — missing recipient sequence in reconciliation.
-/

/-- Claim C9, counterexample: with an explicitly empty `registration_ids`
list (which is "not a non-empty registration_ids list") and a decodable
all-success response, reconciliation does not raise — it returns the
empty reconciled result. -/
theorem handleJSONResponse_empty_list_returns_empty :
    handleJSONResponse (.obj [(resultsKey, .arr [.obj [(midKey, .str ("m").data)]])])
      [(regIdsKey, .arr [])] = .ok [] := by
  rfl

/-- Claim C9 (amended): when the options contain neither a `to` key nor a
`registration_ids` key at all, the recipient sequence is `None`, and — as
soon as the response's `results` lookup succeeds — `zip(None, ...)`
raises `TypeError`; via `sendData`, an HTTP 200 response whose body
decodes to such a document makes the whole call raise `TypeError`.
(With `registration_ids` present but empty the call instead returns an
empty reconciled result, as the counterexample shows.) -/
theorem handleJSONResponse_no_recipients (kwargs : Fields) (response : JVal) (results : JVal)
    (hto : lookupF kwargs toKey = none)
    (hrid : lookupF kwargs regIdsKey = none)
    (hres : getItem response resultsKey = .ok results) :
    handleJSONResponse response kwargs = .error .typeError
    ∧ ∀ body, jsonLoads body = some response →
        sendData kwargs ⟨200, body⟩ = .error .typeError := by
  have hmain : handleJSONResponse response kwargs = .error .typeError := by
    simp only [handleJSONResponse, hto, hrid, reconcileGroups]
    simp only [groupResponseResult, hres, pyIterOpt]
  refine ⟨hmain, ?_⟩
  intro body hbody
  have hval : validateFields kwargs = .ok () :=
    validateFields_ok_of_no_validator (not_mem_of_lookupF_none hrid)
  simp only [sendData, createPayLoad, hval, makeRequest, responseJson, hbody]
  simp [hmain]

/-!
Claim C10 — plain-text payload without a `data` field.
-/

theorem lookupF_setField_ne (fs : Fields) (k k2 : List Char) (v : JVal) (h : k ≠ k2) :
    lookupF (setField fs k v) k2 = lookupF fs k2 := by
  induction fs with
  | nil => simp [setField, lookupF, h]
  | cons kv rest ih =>
    obtain ⟨k3, v3⟩ := kv
    by_cases hk : k3 = k
    · subst hk
      simp only [setField, if_pos rfl]
      by_cases hk2 : k3 = k2
      · exact absurd hk2 h
      · simp [lookupF, hk2]
    · simp only [setField, if_neg hk]
      by_cases hk2 : k3 = k2
      · simp [lookupF, hk2]
      · simp [lookupF, hk2, ih]

set_option maxRecDepth 40000 in
/-- Claim C10, counterexample: options lacking `data` do not always fail
with a key-lookup error — 1001 recipients and no `data` fail with
`FCMTooManyRegIdsException` instead, since validation runs first. -/
theorem createPayLoad_no_data_not_always_keyError :
    createPayLoad false [(regIdsKey, .arr (List.replicate 1001 (.str ("R").data)))]
      = .error (.fcmTooManyRegIds tooManyMsg)
    ∧ ¬(createPayLoad false [(regIdsKey, .arr (List.replicate 1001 (.str ("R").data)))]
        = .error (.keyError dataKey)) := by
  constructor
  · rfl
  · intro h
    rw [show createPayLoad false [(regIdsKey, .arr (List.replicate 1001 (.str ("R").data)))]
        = .error (.fcmTooManyRegIds tooManyMsg) from rfl] at h
    simp at h

/-- Claim C10 (amended): for every send whose options pass validation and
do not include a `data` field, plain-text payload building fails with
`KeyError` on `data` (the source pops `data` without a default), and
`sendPlainText` fails the same way independently of the transport's
response — before any network I/O. -/
theorem sendPlainText_missing_data (fs : Fields)
    (hd : memKeyF fs dataKey = false)
    (hv : validateFields fs = .ok ()) :
    createPayLoad false fs = .error (.keyError dataKey)
    ∧ ∀ resp, sendPlainText fs resp = .error (.keyError dataKey) := by
  have hlk : lookupF fs dataKey = none :=
    lookupF_none_of_not_mem (memKeyF_false_iff.mp hd)
  have hbody : plainTextPayloadBody fs = .error (.keyError dataKey) := by
    unfold plainTextPayloadBody
    cases hr : memKeyF fs regIdsKey with
    | true => simp [hr, hlk]
    | false =>
      simp only [hr, Bool.false_eq_true, if_false]
      rw [lookupF_setField_ne fs regIdsKey dataKey .null (by decide)]
      simp [hlk]
  constructor
  · simp [createPayLoad, hv, hbody]
  · intro resp
    simp [sendPlainText, createPayLoad, hv, hbody]

/-- Claim C10, witness. -/
theorem sendPlainText_missing_data_witness :
    createPayLoad false [(toKey, .str ("R1").data)] = .error (.keyError dataKey)
    ∧ sendPlainText [(toKey, .str ("R1").data)] ⟨200, []⟩ = .error (.keyError dataKey) :=
  ⟨(sendPlainText_missing_data [(toKey, .str ("R1").data)] rfl rfl).1,
   (sendPlainText_missing_data [(toKey, .str ("R1").data)] rfl rfl).2 ⟨200, []⟩⟩

/-!
Claim C6 — zip truncation in the reconciler.
-/

theorem zip_take_min {α β : Type} (l1 : List α) (l2 : List β) :
    List.zip l1 l2 = List.zip (l1.take l2.length) (l2.take l1.length) := by
  induction l1 generalizing l2 with
  | nil => simp
  | cons a l1 ih =>
    cases l2 with
    | nil => simp
    | cons b l2 =>
      simp only [List.zip_cons_cons, List.length_cons, List.take_succ_cons]
      rw [ih l2]

theorem memKeyF_some {fs : Fields} {k : List Char}
    (h : memKeyF fs k = true) : ∃ v, lookupF fs k = some v := by
  induction fs with
  | nil => simp [memKeyF] at h
  | cons kv rest ih =>
    obtain ⟨k2, v2⟩ := kv
    by_cases hk : k2 = k
    · exact ⟨v2, by simp [lookupF, hk]⟩
    · simp only [memKeyF, if_neg hk] at h
      simpa [lookupF, hk] using ih h

theorem collectFiltered_ok_of_obj {key : List Char} {pairs : List (JVal × JVal)}
    (h : ∀ p ∈ pairs, ∃ fs, p.2 = .obj fs ∧ ∀ kv ∈ fs, hashable kv.2 = true) :
    ∃ l, collectFiltered key pairs = .ok l
      ∧ ∀ q ∈ l, (∃ p ∈ pairs, q.1 = p.1) ∧ hashable q.2 = true := by
  induction pairs with
  | nil => exact ⟨[], rfl, by simp⟩
  | cons p rest ih =>
    obtain ⟨rid, res⟩ := p
    obtain ⟨fs, hres, hvals⟩ := h (rid, res) (List.mem_cons_self _ _)
    obtain ⟨l, hl, hql⟩ := ih (fun p hp => h p (List.mem_cons_of_mem _ hp))
    simp only at hres
    subst hres
    by_cases hmem : memKeyF fs key = true
    · obtain ⟨v, hv⟩ := memKeyF_some hmem
      refine ⟨(rid, v) :: l, ?_, ?_⟩
      · simp only [collectFiltered, pyContains, hmem, if_true, getItem, hv, hl]
      · intro q hq
        rcases List.mem_cons.mp hq with rfl | hq
        · exact ⟨⟨(rid, .obj fs), List.mem_cons_self _ _, rfl⟩,
            hvals (key, v) (lookupF_mem hv)⟩
        · obtain ⟨⟨p2, hp2, hq2⟩, hh⟩ := hql q hq
          exact ⟨⟨p2, List.mem_cons_of_mem _ hp2, hq2⟩, hh⟩
    · have hmem2 : memKeyF fs key = false := by
        cases hx : memKeyF fs key
        · rfl
        · exact absurd hx hmem
      refine ⟨l, ?_, ?_⟩
      · simp only [collectFiltered, pyContains, hmem2, Bool.false_eq_true, if_false, hl]
      · intro q hq
        obtain ⟨⟨p2, hp2, hq2⟩, hh⟩ := hql q hq
        exact ⟨⟨p2, List.mem_cons_of_mem _ hp2, hq2⟩, hh⟩

theorem buildDictAux_ok {pairs : List (JVal × JVal)} (acc : Grouping)
    (h : ∀ p ∈ pairs, hashable p.1 = true) :
    ∃ d, buildDictAux acc pairs = .ok d := by
  induction pairs generalizing acc with
  | nil => exact ⟨acc, rfl⟩
  | cons p rest ih =>
    obtain ⟨k, v⟩ := p
    obtain ⟨d, hd⟩ := ih (setAssoc k v acc) (fun p hp => h p (List.mem_cons_of_mem _ hp))
    exact ⟨d, by simp only [buildDictAux, h (k, v) (List.mem_cons_self _ _), if_true, hd]⟩

theorem buildGroupsAux_ok {pairs : List (JVal × JVal)} (acc : List (JVal × List JVal))
    (h : ∀ p ∈ pairs, hashable p.2 = true) :
    ∃ g, buildGroupsAux acc pairs = .ok g := by
  induction pairs generalizing acc with
  | nil => exact ⟨acc, rfl⟩
  | cons p rest ih =>
    obtain ⟨rid, v⟩ := p
    obtain ⟨g, hg⟩ := ih (appendGroup v rid acc) (fun p hp => h p (List.mem_cons_of_mem _ hp))
    exact ⟨g, by simp only [buildGroupsAux, h (rid, v) (List.mem_cons_self _ _), if_true, hg]⟩

/-- Claim C6: reconciliation pairs recipients and results positionally
with `zip` semantics — on differing lengths it behaves exactly as on the
two lists truncated to the shorter length, silently dropping the excess —
and, for well-formed results entries, it signals no error (the first
conjunct holds for all length combinations, in particular differing
ones). -/
theorem groupResponseResult_zip_truncation :
    (∀ (rids : List JVal) (results : List JVal) (key : List Char),
      groupResponseResult (.obj [(resultsKey, .arr results)]) (some (.arr rids)) key
        = groupResponseResult (.obj [(resultsKey, .arr (results.take rids.length))])
            (some (.arr (rids.take results.length))) key)
    ∧ (∀ (rids : List (List Char)) (entries : List Fields) (key : List Char),
        (∀ fs ∈ entries, ∀ kv ∈ fs, hashable kv.2 = true) →
        ∃ g, groupResponseResult (.obj [(resultsKey, .arr (entries.map .obj))])
            (some (.arr (rids.map .str))) key = .ok g) := by
  constructor
  · intro rids results key
    simp only [groupResponseResult, getItem, lookupF, if_pos rfl, pyIterOpt, pyIter,
      eq_self_iff_true, if_true]
    rw [zip_take_min rids results]
  · intro rids entries key h
    simp only [groupResponseResult, getItem, lookupF, if_pos rfl, pyIterOpt, pyIter,
      eq_self_iff_true, if_true]
    have hpairs : ∀ p ∈ List.zip (rids.map JVal.str) (entries.map JVal.obj),
        ∃ fs, p.2 = .obj fs ∧ ∀ kv ∈ fs, hashable kv.2 = true := by
      intro p hp
      have h2 := (List.of_mem_zip hp).2
      obtain ⟨fs, hfs, hfe⟩ := List.mem_map.mp h2
      exact ⟨fs, hfe.symm, h fs hfs⟩
    obtain ⟨l, hl, hql⟩ := collectFiltered_ok_of_obj hpairs
    rw [hl]
    dsimp only
    have hkeys : ∀ q ∈ l, hashable q.1 = true := by
      intro q hq
      obtain ⟨⟨p, hp, hq1⟩, _⟩ := hql q hq
      have h1 := (List.of_mem_zip hp).1
      obtain ⟨r, _, hre⟩ := List.mem_map.mp h1
      rw [hq1, ← hre]
      rfl
    have hvals : ∀ q ∈ l, hashable q.2 = true := fun q hq => (hql q hq).2
    by_cases hk : key = regIdKey ∨ key = midKey
    · obtain ⟨d, hd⟩ := buildDictAux_ok [] hkeys
      rw [if_pos hk, hd]
      exact ⟨_, rfl⟩
    · obtain ⟨g, hg⟩ := buildGroupsAux_ok [] hvals
      rw [if_neg hk, hg]
      exact ⟨_, rfl⟩

/-- Claim C6, witness: two recipients, one results entry. -/
theorem groupResponseResult_zip_truncation_witness :
    (groupResponseResult (.obj [(resultsKey, .arr [.obj [(midKey, .str ("m").data)]])])
        (some (.arr [.str ("A").data, .str ("B").data])) midKey
      = groupResponseResult
          (.obj [(resultsKey, .arr ([JVal.obj [(midKey, .str ("m").data)]].take 2))])
          (some (.arr ([JVal.str ("A").data, .str ("B").data].take 1))) midKey)
    ∧ ∃ g, groupResponseResult
        (.obj [(resultsKey, .arr ([[(midKey, JVal.str ("m").data)]].map JVal.obj))])
        (some (.arr ([("A").data, ("B").data].map JVal.str))) midKey = .ok g :=
  ⟨groupResponseResult_zip_truncation.1 [.str ("A").data, .str ("B").data]
      [.obj [(midKey, .str ("m").data)]] midKey,
   groupResponseResult_zip_truncation.2 [("A").data, ("B").data]
      [[(midKey, .str ("m").data)]] midKey
      (by intro fs hfs kv hkv; simp at hfs; subst hfs; simp at hkv; subst hkv; rfl)⟩

/-!
Claim C5 — all-success reconciliation, and omission of empty groups.
-/

theorem groupResponseResult_arr (results : List JVal) (rv : List JVal) (key : List Char) :
    groupResponseResult (.obj [(resultsKey, .arr results)]) (some (.arr rv)) key
    = (match collectFiltered key (rv.zip results) with
       | .error e => .error e
       | .ok filtered =>
         if key = regIdKey ∨ key = midKey then
           match buildDictAux [] filtered with
           | .error e => .error e
           | .ok d => .ok (if d.isEmpty then none else some d)
         else
           match buildGroupsAux [] filtered with
           | .error e => .error e
           | .ok g => .ok (if (g.map (fun p => (p.1, JVal.arr p.2))).isEmpty then none
                           else some (g.map (fun p => (p.1, JVal.arr p.2))))) := by
  simp only [groupResponseResult, getItem, lookupF, if_pos rfl, eq_self_iff_true, if_true,
    pyIterOpt, pyIter]

theorem collectFiltered_nil_of_absent {key : List Char} {pairs : List (JVal × JVal)}
    (h : ∀ p ∈ pairs, ∃ fs, p.2 = .obj fs ∧ memKeyF fs key = false) :
    collectFiltered key pairs = .ok [] := by
  induction pairs with
  | nil => rfl
  | cons p rest ih =>
    obtain ⟨rid, res⟩ := p
    obtain ⟨fs, hres, habs⟩ := h (rid, res) (List.mem_cons_self _ _)
    simp only at hres
    subst hres
    simp only [collectFiltered, pyContains, habs, Bool.false_eq_true, if_false]
    exact ih (fun p hp => h p (List.mem_cons_of_mem _ hp))

theorem collectFiltered_full {key : List Char} {pairs : List (JVal × JVal)}
    (h : ∀ p ∈ pairs, ∃ fs, p.2 = .obj fs ∧ memKeyF fs key = true) :
    ∃ l, collectFiltered key pairs = .ok l ∧ l.map Prod.fst = pairs.map Prod.fst := by
  induction pairs with
  | nil => exact ⟨[], rfl, rfl⟩
  | cons p rest ih =>
    obtain ⟨rid, res⟩ := p
    obtain ⟨fs, hres, hmem⟩ := h (rid, res) (List.mem_cons_self _ _)
    simp only at hres
    subst hres
    obtain ⟨v, hv⟩ := memKeyF_some hmem
    obtain ⟨l, hl, hmapl⟩ := ih (fun p hp => h p (List.mem_cons_of_mem _ hp))
    refine ⟨(rid, v) :: l, ?_, ?_⟩
    · simp only [collectFiltered, pyContains, hmem, if_true, getItem, hv, hl]
    · simp [hmapl]

theorem pyEqScalar_refl {k : JVal} (h : hashable k = true) : pyEqScalar k k = true := by
  cases k <;> simp_all [pyEqScalar, keyNorm, hashable]

theorem memAssocG_setAssoc_self {k : JVal} (v : JVal) (g : Grouping)
    (h : hashable k = true) : memAssocG k (setAssoc k v g) = true := by
  induction g with
  | nil => simp [setAssoc, memAssocG, pyEqScalar_refl h]
  | cons p rest ih =>
    obtain ⟨k2, v2⟩ := p
    by_cases he : pyEqScalar k2 k = true
    · simp [setAssoc, he, memAssocG]
    · have he2 : pyEqScalar k2 k = false := by
        cases hx : pyEqScalar k2 k
        · rfl
        · exact absurd hx he
      simp only [setAssoc, he2, Bool.false_eq_true, if_false]
      simp only [memAssocG, List.any_cons] at ih ⊢
      simp [ih]

theorem memAssocG_setAssoc_mono {k k2 v : JVal} {g : Grouping}
    (h : memAssocG k2 g = true) : memAssocG k2 (setAssoc k v g) = true := by
  induction g with
  | nil => simp [memAssocG] at h
  | cons p rest ih =>
    obtain ⟨k3, v3⟩ := p
    simp only [memAssocG, List.any_cons, Bool.or_eq_true] at h
    by_cases he : pyEqScalar k3 k = true
    · simp only [setAssoc, he, if_true, memAssocG, List.any_cons]
      rcases h with h | h
      · simp [h]
      · simp [h]
    · have he2 : pyEqScalar k3 k = false := by
        cases hx : pyEqScalar k3 k
        · rfl
        · exact absurd hx he
      simp only [setAssoc, he2, Bool.false_eq_true, if_false, memAssocG, List.any_cons,
        Bool.or_eq_true]
      rcases h with h | h
      · exact Or.inl h
      · exact Or.inr (by simpa [memAssocG] using ih (by simpa [memAssocG] using h))

theorem buildDictAux_cover {pairs : List (JVal × JVal)} (acc : Grouping)
    (h : ∀ p ∈ pairs, hashable p.1 = true) :
    ∃ d, buildDictAux acc pairs = .ok d
      ∧ (∀ k, memAssocG k acc = true → memAssocG k d = true)
      ∧ (∀ p ∈ pairs, memAssocG p.1 d = true) := by
  induction pairs generalizing acc with
  | nil => exact ⟨acc, rfl, fun k hk => hk, by simp⟩
  | cons p rest ih =>
    obtain ⟨k, v⟩ := p
    have hk : hashable k = true := h (k, v) (List.mem_cons_self _ _)
    obtain ⟨d, hd, hacc, hcov⟩ := ih (setAssoc k v acc)
      (fun p hp => h p (List.mem_cons_of_mem _ hp))
    refine ⟨d, ?_, ?_, ?_⟩
    · simp only [buildDictAux, hk, if_true, hd]
    · intro k2 hk2
      exact hacc k2 (memAssocG_setAssoc_mono hk2)
    · intro p hp
      rcases List.mem_cons.mp hp with rfl | hp
      · exact hacc k (memAssocG_setAssoc_self v acc hk)
      · exact hcov p hp

theorem memAssocG_ne_nil {k : JVal} {g : Grouping} (h : memAssocG k g = true) :
    g.isEmpty = false := by
  cases g with
  | nil => simp [memAssocG] at h
  | cons p rest => rfl

theorem groupResponseResult_some_ne_nil {response : JVal} {rid : Option JVal}
    {key : List Char} {g : Grouping}
    (h : groupResponseResult response rid key = .ok (some g)) : g.isEmpty = false := by
  unfold groupResponseResult at h
  cases hx1 : getItem response resultsKey with
  | error e => rw [hx1] at h; exact absurd h (by simp)
  | ok results =>
    rw [hx1] at h
    dsimp only at h
    cases hx2 : pyIterOpt rid with
    | error e => rw [hx2] at h; exact absurd h (by simp)
    | ok rl =>
      rw [hx2] at h
      dsimp only at h
      cases hx3 : pyIter results with
      | error e => rw [hx3] at h; exact absurd h (by simp)
      | ok resl =>
        rw [hx3] at h
        dsimp only at h
        cases hx4 : collectFiltered key (rl.zip resl) with
        | error e => rw [hx4] at h; exact absurd h (by simp)
        | ok filtered =>
          rw [hx4] at h
          dsimp only at h
          by_cases hk : key = regIdKey ∨ key = midKey
          · rw [if_pos hk] at h
            cases hx5 : buildDictAux [] filtered with
            | error e => rw [hx5] at h; exact absurd h (by simp)
            | ok d =>
              rw [hx5] at h
              dsimp only at h
              by_cases hde : d.isEmpty = true
              · rw [if_pos hde] at h
                exact absurd h (by simp)
              · rw [if_neg hde] at h
                simp only [Except.ok.injEq, Option.some.injEq] at h
                subst h
                exact Bool.not_eq_true _ ▸ hde
          · rw [if_neg hk] at h
            cases hx5 : buildGroupsAux [] filtered with
            | error e => rw [hx5] at h; exact absurd h (by simp)
            | ok g0 =>
              rw [hx5] at h
              dsimp only at h
              by_cases hde : (g0.map (fun p => (p.1, JVal.arr p.2))).isEmpty = true
              · rw [if_pos hde] at h
                exact absurd h (by simp)
              · rw [if_neg hde] at h
                simp only [Except.ok.injEq, Option.some.injEq] at h
                subst h
                exact Bool.not_eq_true _ ▸ hde

theorem reconcileGroups_entries_ne_nil {response : JVal} {R : Option JVal} {res : Reconciled}
    (h : reconcileGroups response R = .ok res) : ∀ e ∈ res, e.2.isEmpty = false := by
  unfold reconcileGroups at h
  cases h1 : groupResponseResult response R errKey with
  | error e => rw [h1] at h; exact absurd h (by simp)
  | ok errors =>
    rw [h1] at h
    dsimp only at h
    cases h2 : groupResponseResult response R regIdKey with
    | error e => rw [h2] at h; exact absurd h (by simp)
    | ok canonical =>
      rw [h2] at h
      dsimp only at h
      cases h3 : groupResponseResult response R midKey with
      | error e => rw [h3] at h; exact absurd h (by simp)
      | ok success =>
        rw [h3] at h
        dsimp only at h
        simp only [Except.ok.injEq] at h
        subst h
        intro e he
        rcases List.mem_append.mp he with he | he
        · rcases List.mem_append.mp he with he | he
          · cases herr : errors with
            | none => rw [herr] at he; simp at he
            | some g =>
              rw [herr] at he
              simp only [List.mem_singleton] at he
              subst he
              exact groupResponseResult_some_ne_nil (herr ▸ h1)
          · cases hcan : canonical with
            | none => rw [hcan] at he; simp at he
            | some g =>
              rw [hcan] at he
              simp only [List.mem_singleton] at he
              subst he
              exact groupResponseResult_some_ne_nil (hcan ▸ h2)
        · cases hsuc : success with
          | none => rw [hsuc] at he; simp at he
          | some g =>
            rw [hsuc] at he
            simp only [List.mem_singleton] at he
            subst he
            exact groupResponseResult_some_ne_nil (hsuc ▸ h3)

theorem groupResponseResult_none_of_absent {results : List JVal} (rv : List JVal)
    {key : List Char}
    (h : ∀ r ∈ results, ∃ fs, r = .obj fs ∧ memKeyF fs key = false) :
    groupResponseResult (.obj [(resultsKey, .arr results)]) (some (.arr rv)) key
      = .ok none := by
  rw [groupResponseResult_arr]
  rw [collectFiltered_nil_of_absent (fun p hp => h p.2 (List.of_mem_zip hp).2)]
  dsimp only
  by_cases hk2 : key = regIdKey ∨ key = midKey
  · rw [if_pos hk2]
    rfl
  · rw [if_neg hk2]
    rfl

/-- Claim C5: when the recipient sequence and the results sequence have
equal length and every results entry carries `message_id` but neither
`error` nor `registration_id`, reconciliation yields only a `success`
mapping covering all recipients (no `errors`/`canonical` key); and in
general every key present in a reconciled result is bound to a nonempty
group — empty groups are omitted rather than bound to empty collections. -/
theorem handleJSONResponse_all_success (kwargs : Fields) (rids : List (List Char))
    (results : List JVal)
    (hk : lookupF kwargs regIdsKey = some (.arr (rids.map .str)))
    (hlen : results.length = rids.length)
    (hres : ∀ r ∈ results, ∃ fs, r = .obj fs ∧ memKeyF fs midKey = true
        ∧ memKeyF fs errKey = false ∧ memKeyF fs regIdKey = false) :
    (∃ m, handleJSONResponse (.obj [(resultsKey, .arr results)]) kwargs
        = .ok (if rids.isEmpty then [] else [(successKey, m)])
      ∧ ∀ rid ∈ rids, memAssocG (.str rid) m = true)
    ∧ (∀ (response : JVal) (kw : Fields) (res : Reconciled),
        handleJSONResponse response kw = .ok res → ∀ e ∈ res, e.2.isEmpty = false) := by
  constructor
  · have hstep : ∃ rv : List JVal,
        handleJSONResponse (.obj [(resultsKey, .arr results)]) kwargs
          = reconcileGroups (.obj [(resultsKey, .arr results)]) (some (.arr rv))
        ∧ (rids.isEmpty = false → rv = rids.map .str) := by
      unfold handleJSONResponse
      dsimp only
      rw [hk]
      cases ht : lookupF kwargs toKey with
      | none => exact ⟨rids.map .str, rfl, fun _ => rfl⟩
      | some tv =>
        cases hre : (rids.map JVal.str).isEmpty with
        | false =>
          have htr : optTruthy (some (.arr (rids.map .str))) = true := by
            simp [optTruthy, pyTruthy, hre]
          refine ⟨rids.map .str, ?_, fun _ => rfl⟩
          dsimp only
          rw [htr]
          simp
        | true =>
          by_cases htv : (pyTruthy tv && !optTruthy (some (.arr (rids.map .str)))) = true
          · refine ⟨[tv], by dsimp only; rw [htv]; simp, ?_⟩
            intro hne
            exfalso
            rw [List.isEmpty_eq_false_iff_exists_mem] at hne
            obtain ⟨x, hx⟩ := hne
            rw [List.isEmpty_iff] at hre
            exact absurd (List.mem_map_of_mem JVal.str hx) (by simp [hre])
          · have htv2 : (pyTruthy tv && !optTruthy (some (.arr (rids.map .str)))) = false := by
              cases hx : (pyTruthy tv && !optTruthy (some (.arr (rids.map .str))))
              · rfl
              · exact absurd hx htv
            refine ⟨rids.map .str, by dsimp only; rw [htv2]; simp, fun _ => rfl⟩
    obtain ⟨rv, hrv, hrvne⟩ := hstep
    cases rids with
    | nil =>
      have hres0 : results = [] := List.eq_nil_of_length_eq_zero (by simpa using hlen)
      subst hres0
      refine ⟨[], ?_, by simp⟩
      rw [hrv]
      unfold reconcileGroups
      rw [groupResponseResult_none_of_absent rv (fun r hr => absurd hr (List.not_mem_nil r))]
      rw [groupResponseResult_none_of_absent rv (fun r hr => absurd hr (List.not_mem_nil r))]
      rw [groupResponseResult_none_of_absent rv (fun r hr => absurd hr (List.not_mem_nil r))]
      rfl
    | cons r rids' =>
      have hrveq : rv = (r :: rids').map .str := hrvne rfl
      subst hrveq
      have hpairs_mid : ∀ p ∈ ((r :: rids').map JVal.str).zip results,
          ∃ fs, p.2 = .obj fs ∧ memKeyF fs midKey = true := by
        intro p hp
        obtain ⟨fs, hfs, hmid, _, _⟩ := hres p.2 (List.of_mem_zip hp).2
        exact ⟨fs, hfs, hmid⟩
      obtain ⟨l, hl, hmapl⟩ := collectFiltered_full hpairs_mid
      have hmapfst : l.map Prod.fst = (r :: rids').map JVal.str := by
        rw [hmapl]
        exact List.map_fst_zip _ _ (by simp [hlen])
      have hlhash : ∀ p ∈ l, hashable p.1 = true := by
        intro p hp
        have : p.1 ∈ l.map Prod.fst := List.mem_map_of_mem _ hp
        rw [hmapfst] at this
        obtain ⟨x, _, hxe⟩ := List.mem_map.mp this
        rw [← hxe]
        rfl
      obtain ⟨d, hd, _, hcov⟩ := buildDictAux_cover [] hlhash
      have hcover : ∀ rid ∈ r :: rids', memAssocG (.str rid) d = true := by
        intro rid hrid
        have : JVal.str rid ∈ l.map Prod.fst := by
          rw [hmapfst]
          exact List.mem_map_of_mem _ hrid
        obtain ⟨p, hp, hpe⟩ := List.mem_map.mp this
        rw [← hpe]
        exact hcov p hp
      have hdne : d.isEmpty = false :=
        memAssocG_ne_nil (hcover r (List.mem_cons_self _ _))
      have hsucc : groupResponseResult (.obj [(resultsKey, .arr results)])
          (some (.arr ((r :: rids').map .str))) midKey = .ok (some d) := by
        rw [groupResponseResult_arr]
        rw [hl]
        dsimp only
        rw [if_pos (Or.inr rfl)]
        rw [hd]
        dsimp only
        rw [hdne]
        rfl
      refine ⟨d, ?_, hcover⟩
      rw [hrv]
      unfold reconcileGroups
      rw [groupResponseResult_none_of_absent _ (fun r2 hr2 => by
        obtain ⟨fs, hfs, _, herr2, _⟩ := hres r2 hr2
        exact ⟨fs, hfs, herr2⟩)]
      rw [groupResponseResult_none_of_absent _ (fun r2 hr2 => by
        obtain ⟨fs, hfs, _, _, hreg2⟩ := hres r2 hr2
        exact ⟨fs, hfs, hreg2⟩)]
      rw [hsucc]
      simp
  · intro response kw res h e he
    unfold handleJSONResponse at h
    exact reconcileGroups_entries_ne_nil h e he

/-- Claim C5, witness: two recipients, both with `message_id`. -/
theorem handleJSONResponse_all_success_witness :
    (∃ m, handleJSONResponse
        (.obj [(resultsKey, .arr [.obj [(midKey, .str ("m1").data)],
                                 .obj [(midKey, .str ("m2").data)]])])
        [(regIdsKey, .arr ([("A").data, ("B").data].map .str))]
      = .ok (if [("A").data, ("B").data].isEmpty then []
             else [(successKey, m)])
      ∧ ∀ rid ∈ [("A").data, ("B").data], memAssocG (.str rid) m = true) :=
  (handleJSONResponse_all_success
    [(regIdsKey, .arr ([("A").data, ("B").data].map .str))]
    [("A").data, ("B").data]
    [.obj [(midKey, .str ("m1").data)], .obj [(midKey, .str ("m2").data)]]
    rfl rfl
    (by
      intro r hr
      rcases List.mem_cons.mp hr with rfl | hr
      · exact ⟨[(midKey, .str ("m1").data)], rfl, rfl, rfl, rfl⟩
      · rcases List.mem_cons.mp hr with rfl | hr
        · exact ⟨[(midKey, .str ("m2").data)], rfl, rfl, rfl, rfl⟩
        · simp at hr)).1

/-!
Claim C4 — error grouping.
-/

theorem pyEqScalar_str {a b : List Char} :
    pyEqScalar (.str a) (.str b) = decide (a = b) := rfl

theorem eq_str_of_pyEqScalar {k : JVal} {s : List Char}
    (h : pyEqScalar k (.str s) = true) : k = .str s := by
  cases k <;> simp_all [pyEqScalar, keyNorm]

theorem getG_appendGroup (g : List (JVal × List JVal)) (q reason : List Char) (rid : JVal) :
    getG (.str q) (appendGroup (.str reason) rid g)
      = if reason = q then getG (.str q) g ++ [rid] else getG (.str q) g := by
  induction g with
  | nil =>
    by_cases hq : reason = q
    · subst hq
      simp [appendGroup, getG, lookupG, pyEqScalar_str]
    · simp [appendGroup, getG, lookupG, pyEqScalar_str, hq]
  | cons p rest ih =>
    obtain ⟨k2, ids⟩ := p
    by_cases hb : pyEqScalar k2 (.str reason) = true
    · have hk2 : k2 = .str reason := eq_str_of_pyEqScalar hb
      subst hk2
      simp only [appendGroup, hb, if_true]
      by_cases hq : reason = q
      · subst hq
        simp [getG, lookupG, pyEqScalar_str]
      · simp [getG, lookupG, pyEqScalar_str, hq]
    · have hb2 : pyEqScalar k2 (.str reason) = false := by
        cases hx : pyEqScalar k2 (.str reason)
        · rfl
        · exact absurd hx hb
      simp only [appendGroup, hb2, Bool.false_eq_true, if_false]
      by_cases hh : pyEqScalar k2 (.str q) = true
      · have hk2 : k2 = .str q := eq_str_of_pyEqScalar hh
        subst hk2
        have hq : reason ≠ q := by
          intro he
          subst he
          rw [pyEqScalar_str] at hb2
          simp at hb2
        simp [getG, lookupG, hh, hq]
      · have hh2 : pyEqScalar k2 (.str q) = false := by
          cases hx : pyEqScalar k2 (.str q)
          · rfl
          · exact absurd hx hh
        simp only [getG, lookupG, hh2, Bool.false_eq_true, if_false]
        exact ih

theorem memG_appendGroup (g : List (JVal × List JVal)) (q reason : List Char) (rid : JVal) :
    memG (.str q) (appendGroup (.str reason) rid g)
      = (memG (.str q) g || decide (reason = q)) := by
  induction g with
  | nil =>
    by_cases hq : reason = q
    · simp [appendGroup, memG, lookupG, pyEqScalar_str, hq]
    · simp [appendGroup, memG, lookupG, pyEqScalar_str, hq]
  | cons p rest ih =>
    obtain ⟨k2, ids⟩ := p
    by_cases hb : pyEqScalar k2 (.str reason) = true
    · have hk2 : k2 = .str reason := eq_str_of_pyEqScalar hb
      subst hk2
      simp only [appendGroup, hb, if_true]
      by_cases hq : reason = q
      · subst hq
        simp [memG, lookupG, pyEqScalar_str]
      · simp [memG, lookupG, pyEqScalar_str, hq]
    · have hb2 : pyEqScalar k2 (.str reason) = false := by
        cases hx : pyEqScalar k2 (.str reason)
        · rfl
        · exact absurd hx hb
      simp only [appendGroup, hb2, Bool.false_eq_true, if_false]
      by_cases hh : pyEqScalar k2 (.str q) = true
      · simp [memG, lookupG, hh]
      · have hh2 : pyEqScalar k2 (.str q) = false := by
          cases hx : pyEqScalar k2 (.str q)
          · rfl
          · exact absurd hx hh
        simp only [memG, lookupG, hh2, Bool.false_eq_true, if_false]
        exact ih

theorem keys_appendGroup (g : List (JVal × List JVal)) (reason : List Char) (rid : JVal) :
    (appendGroup (.str reason) rid g).map Prod.fst
      = if memG (.str reason) g then g.map Prod.fst
        else g.map Prod.fst ++ [.str reason] := by
  induction g with
  | nil => simp [appendGroup, memG, lookupG]
  | cons p rest ih =>
    obtain ⟨k2, ids⟩ := p
    by_cases hb : pyEqScalar k2 (.str reason) = true
    · simp [appendGroup, hb, memG, lookupG]
    · have hb2 : pyEqScalar k2 (.str reason) = false := by
        cases hx : pyEqScalar k2 (.str reason)
        · rfl
        · exact absurd hx hb
      simp only [appendGroup, hb2, Bool.false_eq_true, if_false, List.map_cons,
        memG, lookupG]
      rw [show (memG (.str reason) rest) = (lookupG (.str reason) rest).isSome from rfl] at ih
      by_cases hm : (lookupG (.str reason) rest).isSome = true
      · simp only [hm, if_true] at ih
        simp [ih, hm]
      · have hm2 : (lookupG (.str reason) rest).isSome = false := by
          cases hx : (lookupG (.str reason) rest).isSome
          · rfl
          · exact absurd hx hm
        simp only [hm2, Bool.false_eq_true, if_false] at ih
        simp [ih, hm2]

theorem buildGroupsAux_str_fold (pairs : List (List Char × List Char))
    (acc : List (JVal × List JVal)) :
    buildGroupsAux acc (pairs.map (fun p => (JVal.str p.1, JVal.str p.2)))
      = .ok (pairs.foldl (fun g p => appendGroup (.str p.2) (.str p.1) g) acc) := by
  induction pairs generalizing acc with
  | nil => rfl
  | cons p rest ih =>
    obtain ⟨rid, reason⟩ := p
    simp only [List.map_cons, buildGroupsAux, List.foldl_cons]
    exact ih _

theorem getG_str_fold (pairs : List (List Char × List Char))
    (acc : List (JVal × List JVal)) (q : List Char) :
    getG (.str q) (pairs.foldl (fun g p => appendGroup (.str p.2) (.str p.1) g) acc)
      = getG (.str q) acc
        ++ (pairs.filter (fun p => decide (p.2 = q))).map (fun p => JVal.str p.1) := by
  induction pairs generalizing acc with
  | nil => simp
  | cons p rest ih =>
    obtain ⟨rid, reason⟩ := p
    simp only [List.foldl_cons, List.filter_cons]
    rw [ih]
    rw [getG_appendGroup]
    by_cases hq : reason = q
    · simp [hq]
    · simp [hq]

theorem keys_str_fold (pairs : List (List Char × List Char)) :
    ∀ (acc : List (JVal × List JVal)) (seen : List (List Char)),
    (∀ r : List Char, memG (.str r) acc = decide (r ∈ seen)) →
    (pairs.foldl (fun g p => appendGroup (.str p.2) (.str p.1) g) acc).map Prod.fst
      = acc.map Prod.fst ++ (firstSeenAux seen (pairs.map Prod.snd)).map .str := by
  induction pairs with
  | nil => intro acc seen _; simp [firstSeenAux]
  | cons p rest ih =>
    intro acc seen hseen
    obtain ⟨rid, reason⟩ := p
    simp only [List.foldl_cons, List.map_cons, firstSeenAux]
    by_cases hr : reason ∈ seen
    · rw [if_pos hr]
      rw [ih (appendGroup (.str reason) (.str rid) acc) seen ?_]
      · rw [keys_appendGroup]
        rw [hseen reason]
        simp [hr]
      · intro r
        rw [memG_appendGroup, hseen r]
        by_cases he : reason = r
        · subst he
          simp [hr]
        · simp [he]
    · rw [if_neg hr]
      rw [ih (appendGroup (.str reason) (.str rid) acc) (reason :: seen) ?_]
      · rw [keys_appendGroup]
        rw [hseen reason]
        simp only [hr, decide_False, Bool.false_eq_true, if_false]
        simp [List.append_assoc]
      · intro r
        rw [memG_appendGroup, hseen r]
        by_cases he : reason = r
        · subst he
          simp
        · simp [he, List.mem_cons, Ne.symm he]

/-- Claim C4: for recipients `[A, B, C]` with `NotRegistered` errors at
the positions of `A` and `C` and a `message_id` at `B`'s position,
reconciliation yields `errors = {NotRegistered: [A, C]}` and
`success = {B: mid}` (in that key order); and in general the error
grouping built by `buildGroupsAux`/`appendGroup` collects, under each
reason, exactly the recipient ids sharing that reason in original order,
with the reasons themselves in first-seen order. -/
theorem handleJSONResponse_error_grouping :
    (∀ a b c mid : List Char,
      handleJSONResponse
        (.obj [(resultsKey, .arr [.obj [(errKey, .str ("NotRegistered").data)],
                                  .obj [(midKey, .str mid)],
                                  .obj [(errKey, .str ("NotRegistered").data)]])])
        [(regIdsKey, .arr [.str a, .str b, .str c])]
      = .ok [(errorsKey, [(.str ("NotRegistered").data, .arr [.str a, .str c])]),
             (successKey, [(.str b, .str mid)])])
    ∧ (∀ pairs : List (List Char × List Char),
        buildGroupsAux [] (pairs.map (fun p => (JVal.str p.1, JVal.str p.2)))
          = .ok (pairs.foldl (fun g p => appendGroup (.str p.2) (.str p.1) g) [])
        ∧ (pairs.foldl (fun g p => appendGroup (.str p.2) (.str p.1) g) []).map Prod.fst
            = (firstSeen (pairs.map Prod.snd)).map .str
        ∧ ∀ r : List Char,
            getG (.str r) (pairs.foldl (fun g p => appendGroup (.str p.2) (.str p.1) g) [])
              = (pairs.filter (fun p => decide (p.2 = r))).map (fun p => JVal.str p.1)) := by
  constructor
  · intro a b c mid
    rfl
  · intro pairs
    refine ⟨buildGroupsAux_str_fold pairs [], ?_, ?_⟩
    · rw [keys_str_fold pairs [] [] (fun r => by simp [memG, lookupG])]
      rfl
    · intro r
      rw [getG_str_fold]
      rfl

/-!
Claim C7 — plain-text payload flattening.
-/

theorem setField_mem_self (fs : Fields) (k : List Char) (v : JVal) :
    (k, v) ∈ setField fs k v := by
  induction fs with
  | nil => simp [setField]
  | cons kv rest ih =>
    obtain ⟨k2, v2⟩ := kv
    by_cases hk : k2 = k
    · subst hk
      simp [setField]
    · simp only [setField, hk, if_false]
      exact List.mem_cons_of_mem _ ih

theorem setField_mem_of_ne {fs : Fields} {k1 k : List Char} {v1 v : JVal}
    (h : (k1, v1) ∈ fs) (hne : k1 ≠ k) : (k1, v1) ∈ setField fs k v := by
  induction fs with
  | nil => simp at h
  | cons kv rest ih =>
    obtain ⟨k2, v2⟩ := kv
    by_cases hk : k2 = k
    · subst hk
      simp only [setField, if_pos rfl]
      rcases List.mem_cons.mp h with he | h2
      · exfalso
        apply hne
        have := congrArg Prod.fst he
        simpa using this
      · exact List.mem_cons_of_mem _ h2
    · simp only [setField, if_neg hk]
      rcases List.mem_cons.mp h with he | h2
      · rw [he]
        exact List.mem_cons_self _ _
      · exact List.mem_cons_of_mem _ (ih h2)

theorem memKeyF_setField_ne {fs : Fields} {k k2 : List Char} {v : JVal} (h : k ≠ k2) :
    memKeyF (setField fs k v) k2 = memKeyF fs k2 := by
  induction fs with
  | nil => simp [setField, memKeyF, h]
  | cons kv rest ih =>
    obtain ⟨k3, v3⟩ := kv
    by_cases hk : k3 = k
    · subst hk
      simp [setField, memKeyF]
    · simp only [setField, if_neg hk, memKeyF]
      by_cases hk2 : k3 = k2
      · simp [hk2]
      · simp [hk2, ih]

theorem mem_eraseField {fs : Fields} {k1 k : List Char} {v1 : JVal}
    (h : (k1, v1) ∈ fs) (hne : k1 ≠ k) : (k1, v1) ∈ eraseField fs k := by
  unfold eraseField
  rw [List.mem_filter]
  exact ⟨h, by simpa using hne⟩

theorem memKeyF_eraseField_self (fs : Fields) (k : List Char) :
    memKeyF (eraseField fs k) k = false := by
  rw [memKeyF_false_iff]
  intro kv hkv
  rw [eraseField, List.mem_filter] at hkv
  simpa using hkv.2

theorem flatten_fold_mem_preserved {dfs : Fields} {acc : Fields} {k1 : List Char} {v1 : JVal}
    (h : (k1, v1) ∈ acc) (hne : ∀ kv ∈ dfs, dataDot ++ kv.1 ≠ k1) :
    (k1, v1) ∈ dfs.foldl (fun acc kv => setField acc (dataDot ++ kv.1) kv.2) acc := by
  induction dfs generalizing acc with
  | nil => exact h
  | cons kv rest ih =>
    simp only [List.foldl_cons]
    exact ih (setField_mem_of_ne h (Ne.symm (hne kv (List.mem_cons_self _ _))))
      (fun kv2 hkv2 => hne kv2 (List.mem_cons_of_mem _ hkv2))

theorem flatten_fold_mem_insert {dfs : Fields} (acc : Fields)
    (hnd : (dfs.map Prod.fst).Nodup) :
    ∀ kv ∈ dfs, (dataDot ++ kv.1, kv.2)
      ∈ dfs.foldl (fun acc kv => setField acc (dataDot ++ kv.1) kv.2) acc := by
  induction dfs generalizing acc with
  | nil => simp
  | cons kv0 rest ih =>
    intro kv hkv
    simp only [List.map_cons, List.nodup_cons] at hnd
    rcases List.mem_cons.mp hkv with rfl | hkv2
    · simp only [List.foldl_cons]
      apply flatten_fold_mem_preserved (setField_mem_self _ _ _)
      intro kv2 hkv2 he
      have : kv2.1 = kv.1 := List.append_cancel_left he
      exact hnd.1 (this ▸ List.mem_map_of_mem Prod.fst hkv2)
    · simp only [List.foldl_cons]
      exact ih _ hnd.2 kv hkv2

theorem flatten_fold_memKeyF {dfs : Fields} {acc : Fields} {k2 : List Char}
    (hne : ∀ kv ∈ dfs, dataDot ++ kv.1 ≠ k2) :
    memKeyF (dfs.foldl (fun acc kv => setField acc (dataDot ++ kv.1) kv.2) acc) k2
      = memKeyF acc k2 := by
  induction dfs generalizing acc with
  | nil => rfl
  | cons kv rest ih =>
    simp only [List.foldl_cons]
    rw [ih (fun kv2 hkv2 => hne kv2 (List.mem_cons_of_mem _ hkv2))]
    exact memKeyF_setField_ne (hne kv (List.mem_cons_self _ _))

theorem dataDot_append_ne_dataKey (x : List Char) : dataDot ++ x ≠ dataKey := by
  intro h
  have := congrArg List.length h
  simp [dataDot, dataKey] at this

theorem dataDot_append_ne_regIdsKey (x : List Char) : dataDot ++ x ≠ regIdsKey := by
  intro h
  have := congrArg List.head? h
  simp [dataDot, regIdsKey] at this

/-- Claim C7, counterexample: building the plain-text payload for options
without `registration_ids` does not remove that key — the source adds it
with value `None` (`pop` with default, assigned back under an inverted
presence check). -/
theorem plainTextPayloadBody_adds_null_regIds :
    plainTextPayloadBody [(toKey, .str ("R1").data), (dataKey, .obj [(("k").data, .str ("v").data)])]
      = .ok [(toKey, .str ("R1").data), (regIdsKey, .null), (("data.k").data, .str ("v").data)]
    ∧ memKeyF [(toKey, .str ("R1").data), (regIdsKey, .null), (("data.k").data, .str ("v").data)]
        regIdsKey = true := by
  exact ⟨rfl, rfl⟩

/-- Claim C7 (amended): building the plain-text payload for a field set
containing a `data` mapping flattens each `data` entry `(k, v)` to a
top-level entry `data.<k> = v`, removes the `data` key itself, and — when
`registration_ids` was absent from the input — adds a `registration_ids`
key with value `None` (rather than removing it, as the spec claims). -/
theorem plainTextPayloadBody_flatten (fs : Fields) (d : Fields)
    (hd : lookupF fs dataKey = some (.obj d))
    (hdnd : (d.map Prod.fst).Nodup) :
    ∃ out, plainTextPayloadBody fs = .ok out
      ∧ (∀ kv ∈ d, (dataDot ++ kv.1, kv.2) ∈ out)
      ∧ memKeyF out dataKey = false
      ∧ (memKeyF fs regIdsKey = false → (regIdsKey, JVal.null) ∈ out) := by
  unfold plainTextPayloadBody
  cases hr : memKeyF fs regIdsKey with
  | true =>
    simp only [hr, eq_self_iff_true, if_true]
    rw [hd]
    dsimp only
    refine ⟨_, rfl, ?_, ?_, ?_⟩
    · intro kv hkv
      exact flatten_fold_mem_insert _ hdnd kv hkv
    · rw [flatten_fold_memKeyF (fun kv _ => dataDot_append_ne_dataKey kv.1)]
      exact memKeyF_eraseField_self _ _
    · intro hfalse
      simp at hfalse
  | false =>
    simp only [hr, Bool.false_eq_true, if_false]
    rw [lookupF_setField_ne fs regIdsKey dataKey .null (by decide), hd]
    dsimp only
    refine ⟨_, rfl, ?_, ?_, ?_⟩
    · intro kv hkv
      exact flatten_fold_mem_insert _ hdnd kv hkv
    · rw [flatten_fold_memKeyF (fun kv _ => dataDot_append_ne_dataKey kv.1)]
      exact memKeyF_eraseField_self _ _
    · intro _
      apply flatten_fold_mem_preserved
      · apply mem_eraseField _ (by decide)
        exact setField_mem_self fs regIdsKey .null
      · intro kv _
        exact dataDot_append_ne_regIdsKey kv.1

/-- Claim C7, witness. -/
theorem plainTextPayloadBody_flatten_witness :
    ∃ out, plainTextPayloadBody
        [(toKey, .str ("R1").data), (dataKey, .obj [(("k").data, .str ("v").data)])]
        = .ok out
      ∧ (∀ kv ∈ [(("k").data, JVal.str ("v").data)], (dataDot ++ kv.1, kv.2) ∈ out)
      ∧ memKeyF out dataKey = false
      ∧ (memKeyF [(toKey, JVal.str ("R1").data),
                  (dataKey, JVal.obj [(("k").data, .str ("v").data)])] regIdsKey = false →
          (regIdsKey, JVal.null) ∈ out) :=
  plainTextPayloadBody_flatten
    [(toKey, .str ("R1").data), (dataKey, .obj [(("k").data, .str ("v").data)])]
    [(("k").data, .str ("v").data)] rfl (by simp)

/-!
Claim C8 — JSON round trip.  Characters and hex escapes.
-/

theorem char_valid (c : Char) :
    c.toNat < 55296 ∨ (57343 < c.toNat ∧ c.toNat < 1114112) := by
  have h := c.valid
  rcases h with h | ⟨h1, h2⟩
  · left
    exact h
  · right
    exact ⟨h1, h2⟩

theorem hexVal_hexDig : ∀ k < 16, hexVal (hexDig k) = some k := by decide

theorem hex4_toHex4 {n : Nat} (h : n < 65536) :
    hex4 (hexDig (n / 4096 % 16)) (hexDig (n / 256 % 16))
      (hexDig (n / 16 % 16)) (hexDig (n % 16)) = some n := by
  unfold hex4
  rw [hexVal_hexDig _ (Nat.mod_lt _ (by omega)),
      hexVal_hexDig _ (Nat.mod_lt _ (by omega)),
      hexVal_hexDig _ (Nat.mod_lt _ (by omega)),
      hexVal_hexDig _ (Nat.mod_lt _ (by omega))]
  dsimp only
  congr 1
  omega

theorem parseStrBodyF_quote_step (f : Nat) (t : List Char) :
    parseStrBodyF (f + 1) ('"' :: t) = some ([], t) := by
  simp [parseStrBodyF]

theorem parseStrBodyF_esc_step (f : Nat) (e : Char) (t : List Char) (he : ¬e = 'u') :
    parseStrBodyF (f + 1) ('\\' :: e :: t)
      = (match unescChar e with
         | none => none
         | some c2 =>
           match parseStrBodyF f t with
           | some (cs, r) => some (c2 :: cs, r)
           | none => none) := by
  simp only [parseStrBodyF]
  simp only [if_true]
  rw [if_neg (by decide : ¬('\\' = '"')), if_neg he]

theorem parseStrBodyF_u_step (f : Nat) (a b c2 d : Char) (rest3 : List Char) :
    parseStrBodyF (f + 1) ('\\' :: 'u' :: a :: b :: c2 :: d :: rest3)
      = (match hex4 a b c2 d with
         | none => none
         | some n =>
           if 55296 ≤ n ∧ n ≤ 56319 then
             (match rest3 with
              | s1 :: s2 :: e2 :: f2 :: g2 :: h2 :: rest4 =>
                if s1 = '\\' ∧ s2 = 'u' then
                  match hex4 e2 f2 g2 h2 with
                  | none => none
                  | some m =>
                    if 56320 ≤ m ∧ m ≤ 57343 then
                      match parseStrBodyF f rest4 with
                      | some (cs, r) =>
                        some (Char.ofNat (65536 + (n - 55296) * 1024 + (m - 56320)) :: cs, r)
                      | none => none
                    else none
                else none
              | _ => none)
           else if 56320 ≤ n ∧ n ≤ 57343 then none
           else
             match parseStrBodyF f rest3 with
             | some (cs, r) => some (Char.ofNat n :: cs, r)
             | none => none) := by
  simp only [parseStrBodyF]
  simp only [if_true]
  rw [if_neg (by decide : ¬('\\' = '"'))]

theorem parseStrBodyF_raw_step (f : Nat) (c : Char) (t : List Char)
    (h1 : ¬c = '"') (h2 : ¬c = '\\') :
    parseStrBodyF (f + 1) (c :: t)
      = (match parseStrBodyF f t with
         | some (cs, r) => some (c :: cs, r)
         | none => none) := by
  simp only [parseStrBodyF]
  rw [if_neg h1, if_neg h2]

theorem parseStrBodyF_escape_cons {t cs r : List Char} {f : Nat} (c : Char)
    (hp : parseStrBodyF f t = some (cs, r)) :
    parseStrBodyF (f + 1) (escapeChar c ++ t) = some (c :: cs, r) := by
  unfold escapeChar
  split_ifs with h1 h2 h3 h4 h5 h6 h7 h8 h9
  · subst h1
    rw [List.cons_append, List.cons_append, List.nil_append,
      parseStrBodyF_esc_step _ _ _ (by decide)]
    simp [unescChar, hp]
  · subst h2
    rw [List.cons_append, List.cons_append, List.nil_append,
      parseStrBodyF_esc_step _ _ _ (by decide)]
    simp [unescChar, hp]
  · subst h3
    rw [List.cons_append, List.cons_append, List.nil_append,
      parseStrBodyF_esc_step _ _ _ (by decide)]
    simp [unescChar, hp]
  · subst h4
    rw [List.cons_append, List.cons_append, List.nil_append,
      parseStrBodyF_esc_step _ _ _ (by decide)]
    simp [unescChar, hp]
  · subst h5
    rw [List.cons_append, List.cons_append, List.nil_append,
      parseStrBodyF_esc_step _ _ _ (by decide)]
    simp [unescChar, hp]
  · have hc : c = Char.ofNat 8 := by
      rw [← Char.ofNat_toNat c, h6]
    subst hc
    rw [List.cons_append, List.cons_append, List.nil_append,
      parseStrBodyF_esc_step _ _ _ (by decide)]
    simp [unescChar, hp]
  · have hc : c = Char.ofNat 12 := by
      rw [← Char.ofNat_toNat c, h7]
    subst hc
    rw [List.cons_append, List.cons_append, List.nil_append,
      parseStrBodyF_esc_step _ _ _ (by decide)]
    simp [unescChar, hp]
  · have hval := char_valid c
    have hn1 : ¬(55296 ≤ c.toNat ∧ c.toNat ≤ 56319) := by omega
    have hn2 : ¬(56320 ≤ c.toNat ∧ c.toNat ≤ 57343) := by omega
    simp only [toHex4, List.cons_append, List.nil_append]
    rw [parseStrBodyF_u_step]
    rw [hex4_toHex4 h9]
    dsimp only
    rw [if_neg hn1, if_neg hn2, hp]
    dsimp only
    rw [Char.ofNat_toNat]
  · have hval := char_valid c
    have hupper : c.toNat < 1114112 := by omega
    have hlow : 65536 ≤ c.toNat := by omega
    have hhi1 : 55296 ≤ 55296 + (c.toNat - 65536) / 1024 := by omega
    have hhi2 : 55296 + (c.toNat - 65536) / 1024 ≤ 56319 := by omega
    have hhiu : 55296 + (c.toNat - 65536) / 1024 < 65536 := by omega
    have hlo1 : 56320 ≤ 56320 + (c.toNat - 65536) % 1024 := by omega
    have hlo2 : 56320 + (c.toNat - 65536) % 1024 ≤ 57343 := by omega
    have hlou : 56320 + (c.toNat - 65536) % 1024 < 65536 := by omega
    simp only [toHex4, List.cons_append, List.append_assoc, List.nil_append]
    rw [parseStrBodyF_u_step]
    rw [hex4_toHex4 hhiu]
    dsimp only
    rw [if_pos ⟨hhi1, hhi2⟩]
    rw [if_pos (by decide : ('\\' = '\\' ∧ 'u' = 'u'))]
    rw [hex4_toHex4 hlou]
    dsimp only
    rw [if_pos ⟨hlo1, hlo2⟩, hp]
    dsimp only
    have harith : 65536 + (55296 + (c.toNat - 65536) / 1024 - 55296) * 1024
        + (56320 + (c.toNat - 65536) % 1024 - 56320) = c.toNat := by omega
    rw [harith, Char.ofNat_toNat]
  · rw [List.cons_append, List.nil_append,
      parseStrBodyF_raw_step _ _ _ h1 h2, hp]

theorem escapeChar_ne_nil (c : Char) : escapeChar c ≠ [] := by
  unfold escapeChar
  split_ifs <;> simp

theorem length_le_escapeStr (s : List Char) : s.length ≤ (escapeStr s).length := by
  induction s with
  | nil => simp [escapeStr]
  | cons c cs ih =>
    rw [escapeStr, List.length_append]
    have h1 : 0 < (escapeChar c).length := List.length_pos.mpr (escapeChar_ne_nil c)
    simp only [List.length_cons]
    omega

theorem parseStrBodyF_escapeStr (s : List Char) : ∀ (f : Nat) (rest : List Char),
    s.length < f → parseStrBodyF f (escapeStr s ++ ('"' :: rest)) = some (s, rest) := by
  induction s with
  | nil =>
    intro f rest h
    cases f with
    | zero => omega
    | succ g => simpa [escapeStr] using parseStrBodyF_quote_step g rest
  | cons c cs ih =>
    intro f rest h
    cases f with
    | zero => omega
    | succ g =>
      rw [escapeStr, List.append_assoc]
      exact parseStrBodyF_escape_cons c (ih g rest (by simp only [List.length_cons] at h; omega))

theorem parseStrBody_escapeStr (s rest : List Char) :
    parseStrBody (escapeStr s ++ ('"' :: rest)) = some (s, rest) := by
  unfold parseStrBody
  apply parseStrBodyF_escapeStr
  have h := length_le_escapeStr s
  rw [List.length_append]
  simp only [List.length_cons]
  omega

/-!
Claim C8 — integer round trip.
-/

theorem digit_char_facts : ∀ k < 10,
    (Char.ofNat (48 + k)).toNat = 48 + k ∧ isDig (Char.ofNat (48 + k)) = true := by
  decide

theorem isDig_ne_minus {c : Char} (h : isDig c = true) : ¬c = '-' := by
  intro he
  subst he
  simp [isDig] at h

theorem natDigits_all_digits : ∀ n : Nat, ∀ c ∈ natDigits n, isDig c = true := by
  intro n
  induction n using Nat.strong_induction_on with
  | _ n ih =>
    rw [natDigits]
    by_cases h : n < 10
    · rw [dif_pos h]
      intro c hc
      rw [List.mem_singleton] at hc
      subst hc
      exact (digit_char_facts n h).2
    · rw [dif_neg h]
      intro c hc
      rcases List.mem_append.mp hc with hc | hc
      · exact ih (n / 10) (Nat.div_lt_self (by omega) (by omega)) c hc
      · rw [List.mem_singleton] at hc
        subst hc
        exact (digit_char_facts (n % 10) (Nat.mod_lt _ (by omega))).2

theorem natDigits_ne_nil (n : Nat) : natDigits n ≠ [] := by
  rw [natDigits]
  by_cases h : n < 10
  · rw [dif_pos h]
    simp
  · rw [dif_neg h]
    simp

theorem foldDigits_natDigits : ∀ n acc : Nat,
    List.foldl (fun a c => a * 10 + (c.toNat - 48)) acc (natDigits n)
      = acc * 10 ^ (natDigits n).length + n := by
  intro n
  induction n using Nat.strong_induction_on with
  | _ n ih =>
    intro acc
    rw [natDigits]
    by_cases h : n < 10
    · rw [dif_pos h]
      simp only [List.foldl_cons, List.foldl_nil, List.length_singleton]
      rw [(digit_char_facts n h).1]
      omega
    · rw [dif_neg h]
      rw [List.foldl_append, List.length_append]
      rw [ih (n / 10) (Nat.div_lt_self (by omega) (by omega)) acc]
      simp only [List.foldl_cons, List.foldl_nil, List.length_singleton]
      rw [(digit_char_facts (n % 10) (Nat.mod_lt _ (by omega))).1]
      have hdm : n / 10 * 10 + n % 10 = n := by omega
      have hpow : 10 ^ ((natDigits (n / 10)).length + 1)
          = 10 ^ (natDigits (n / 10)).length * 10 := pow_succ 10 _
      rw [hpow]
      have : (48 + n % 10 - 48) = n % 10 := by omega
      rw [this]
      calc (acc * 10 ^ (natDigits (n / 10)).length + n / 10) * 10 + n % 10
          = acc * (10 ^ (natDigits (n / 10)).length * 10) + (n / 10 * 10 + n % 10) := by ring
        _ = acc * (10 ^ (natDigits (n / 10)).length * 10) + n := by rw [hdm]

theorem numSafe_head_not_digit {rest : List Char} (h : numSafe rest = true) :
    ∀ c t, rest = c :: t → isDig c = false := by
  intro c t he
  subst he
  simp only [numSafe, Bool.not_eq_true'] at h
  simp only [Bool.or_eq_false_iff] at h
  exact h.1.1.1

theorem digitsLoop_append : ∀ (ds : List Char) (acc : Nat) (rest : List Char),
    (∀ c ∈ ds, isDig c = true) → numSafe rest = true →
    digitsLoop acc (ds ++ rest)
      = (List.foldl (fun a c => a * 10 + (c.toNat - 48)) acc ds, rest) := by
  intro ds
  induction ds with
  | nil =>
    intro acc rest hds hrest
    simp only [List.nil_append, List.foldl_nil]
    cases rest with
    | nil => rfl
    | cons c t =>
      simp only [digitsLoop, numSafe_head_not_digit hrest c t rfl, Bool.false_eq_true, if_false]
  | cons d ds2 ih =>
    intro acc rest hds hrest
    simp only [List.cons_append, digitsLoop, hds d (List.mem_cons_self _ _), if_true,
      List.foldl_cons]
    exact ih _ rest (fun c hc => hds c (List.mem_cons_of_mem _ hc)) hrest

theorem parseNum_natDigits (m : Nat) (rest : List Char) (hrest : numSafe rest = true) :
    parseNum (natDigits m ++ rest) = some (.num (m : Int), rest) := by
  obtain ⟨d, ds, hds⟩ : ∃ d ds, natDigits m = d :: ds := by
    cases hx : natDigits m with
    | nil => exact absurd hx (natDigits_ne_nil m)
    | cons d ds => exact ⟨d, ds, rfl⟩
  have hdig : ∀ c ∈ d :: ds, isDig c = true := by
    rw [← hds]
    exact natDigits_all_digits m
  have hd : isDig d = true := hdig d (List.mem_cons_self _ _)
  rw [hds, List.cons_append]
  simp only [parseNum, if_neg (isDig_ne_minus hd), hd, if_true]
  rw [digitsLoop_append ds _ rest (fun c hc => hdig c (List.mem_cons_of_mem _ hc)) hrest]
  have hfold : List.foldl (fun a c => a * 10 + (c.toNat - 48)) (d.toNat - 48) ds = m := by
    have h0 := foldDigits_natDigits m 0
    rw [hds] at h0
    simp only [List.foldl_cons, Nat.zero_mul, Nat.zero_add] at h0
    simpa using h0
  rw [hfold]
  simp [hrest]

theorem parseNum_dumpInt (n : Int) (rest : List Char) (hrest : numSafe rest = true) :
    parseNum (dumpInt n ++ rest) = some (.num n, rest) := by
  cases n with
  | ofNat m => exact parseNum_natDigits m rest hrest
  | negSucc m =>
    rw [dumpInt, List.cons_append]
    obtain ⟨d, ds, hds⟩ : ∃ d ds, natDigits (m + 1) = d :: ds := by
      cases hx : natDigits (m + 1) with
      | nil => exact absurd hx (natDigits_ne_nil _)
      | cons d ds => exact ⟨d, ds, rfl⟩
    have hdig : ∀ c ∈ d :: ds, isDig c = true := by
      rw [← hds]
      exact natDigits_all_digits _
    have hd : isDig d = true := hdig d (List.mem_cons_self _ _)
    rw [hds, List.cons_append]
    simp only [parseNum, if_pos rfl, hd, if_true]
    rw [digitsLoop_append ds _ rest (fun c hc => hdig c (List.mem_cons_of_mem _ hc)) hrest]
    have hfold : List.foldl (fun a c => a * 10 + (c.toNat - 48)) (d.toNat - 48) ds = m + 1 := by
      have h0 := foldDigits_natDigits (m + 1) 0
      rw [hds] at h0
      simp only [List.foldl_cons, Nat.zero_mul, Nat.zero_add] at h0
      simpa using h0
    rw [hfold]
    simp only [hrest, if_true]
    have hneg : (-((m + 1 : Nat) : Int)) = Int.negSucc m := by
      rw [Int.negSucc_eq]
      push_cast
      ring
    rw [hneg]

/-!
Claim C8 — structure of serialized output and parser steps.
-/

theorem char_ne_of_toNat_ne {c d : Char} (h : c.toNat ≠ d.toNat) : ¬c = d :=
  fun he => h (congrArg Char.toNat he)

theorem isDig_head_facts {c : Char} (h : isDig c = true) :
    isWs c = false ∧ ¬c = ']' ∧ ¬c = '\x7d' ∧ ¬c = ',' ∧ ¬c = ':' := by
  have hn : 48 ≤ c.toNat ∧ c.toNat ≤ 57 := by simpa [isDig] using h
  have e1 : (' ' : Char).toNat = 32 := by decide
  have e2 : ('\t' : Char).toNat = 9 := by decide
  have e3 : ('\n' : Char).toNat = 10 := by decide
  have e4 : ('\x0d' : Char).toNat = 13 := by decide
  have e5 : (']' : Char).toNat = 93 := by decide
  have e6 : ('\x7d' : Char).toNat = 125 := by decide
  have e7 : (',' : Char).toNat = 44 := by decide
  have e8 : (':' : Char).toNat = 58 := by decide
  refine ⟨?_, ?_, ?_, ?_, ?_⟩
  · apply decide_eq_false
    intro hc
    rcases hc with hc | hc | hc | hc <;>
    · have h2 := congrArg Char.toNat hc
      omega
  · exact char_ne_of_toNat_ne (by omega)
  · exact char_ne_of_toNat_ne (by omega)
  · exact char_ne_of_toNat_ne (by omega)
  · exact char_ne_of_toNat_ne (by omega)

theorem dumps_head (v : JVal) : ∃ c t, dumps v = c :: t
    ∧ isWs c = false ∧ ¬c = ']' ∧ ¬c = '\x7d' ∧ ¬c = ',' ∧ ¬c = ':' := by
  cases v with
  | null =>
    exact ⟨'n', ['u', 'l', 'l'], by simp [dumps], by decide, by decide, by decide, by decide,
      by decide⟩
  | bool b =>
    cases b with
    | true =>
      exact ⟨'t', ['r', 'u', 'e'], by simp [dumps], by decide, by decide, by decide, by decide,
        by decide⟩
    | false =>
      exact ⟨'f', ['a', 'l', 's', 'e'], by simp [dumps], by decide, by decide, by decide,
        by decide, by decide⟩
  | num n =>
    cases n with
    | ofNat m =>
      obtain ⟨d, ds, hds⟩ : ∃ d ds, natDigits m = d :: ds := by
        cases hx : natDigits m with
        | nil => exact absurd hx (natDigits_ne_nil m)
        | cons d ds => exact ⟨d, ds, rfl⟩
      have hd : isDig d = true := by
        apply natDigits_all_digits m
        rw [hds]
        exact List.mem_cons_self _ _
      obtain ⟨h1, h2, h3, h4, h5⟩ := isDig_head_facts hd
      exact ⟨d, ds, by simp [dumps, dumpInt, hds], h1, h2, h3, h4, h5⟩
    | negSucc m =>
      exact ⟨'-', natDigits (m + 1), by simp [dumps, dumpInt], by decide, by decide, by decide,
        by decide, by decide⟩
  | str s =>
    exact ⟨'"', escapeStr s ++ ['"'], by simp [dumps], by decide, by decide, by decide,
      by decide, by decide⟩
  | arr xs =>
    cases xs with
    | nil =>
      exact ⟨'[', [']'], by simp [dumps], by decide, by decide, by decide, by decide, by decide⟩
    | cons x xs =>
      exact ⟨'[', dumps x ++ (dumpsArrTail xs ++ [']']), by simp [dumps], by decide, by decide,
        by decide, by decide, by decide⟩
  | obj fs =>
    cases fs with
    | nil =>
      exact ⟨'\x7b', ['\x7d'], by simp [dumps], by decide, by decide, by decide, by decide,
        by decide⟩
    | cons kv fs =>
      exact ⟨'\x7b', dumpsEntry kv ++ (dumpsObjTail fs ++ ['\x7d']), by simp [dumps], by decide,
        by decide, by decide, by decide, by decide⟩

theorem skipWs_cons_not_ws {c : Char} {t : List Char} (h : isWs c = false) :
    skipWs (c :: t) = c :: t := by
  simp [skipWs, h]

theorem skipWs_dumps (v : JVal) (rest : List Char) :
    skipWs (dumps v ++ rest) = dumps v ++ rest := by
  obtain ⟨c, t, he, hw, _⟩ := dumps_head v
  rw [he, List.cons_append]
  exact skipWs_cons_not_ws hw

theorem parseVal_cons_ws {c : Char} (h : isWs c = true) (f : Nat) (t : List Char) :
    parseVal f (c :: t) = parseVal f t := by
  cases f with
  | zero => simp only [parseVal]
  | succ g =>
    simp only [parseVal]
    rw [show skipWs (c :: t) = skipWs t by simp [skipWs, h]]

theorem parseEntry_cons_ws {c : Char} (h : isWs c = true) (f : Nat) (t : List Char) :
    parseEntry f (c :: t) = parseEntry f t := by
  cases f with
  | zero => simp only [parseEntry]
  | succ g =>
    simp only [parseEntry]
    rw [show skipWs (c :: t) = skipWs t by simp [skipWs, h]]

theorem pvc_str_step (pv : List Char → Option (JVal × List Char))
    (pa : List Char → Option (List JVal × List Char))
    (pe : List Char → Option ((List Char × JVal) × List Char))
    (po : List Char → Option (List (List Char × JVal) × List Char)) (rest : List Char) :
    parseValCore pv pa pe po ('"' :: rest)
      = (match parseStrBody rest with
         | some (cs, r) => some (.str cs, r)
         | none => none) := by
  simp only [parseValCore]
  simp only [if_true]

theorem pvc_arr_step (pv : List Char → Option (JVal × List Char))
    (pa : List Char → Option (List JVal × List Char))
    (pe : List Char → Option ((List Char × JVal) × List Char))
    (po : List Char → Option (List (List Char × JVal) × List Char)) (rest : List Char) :
    parseValCore pv pa pe po ('[' :: rest)
      = (if headIs (skipWs rest) ']' then some (.arr [], (skipWs rest).tail)
         else
           match pv rest with
           | some (v, r1) =>
             match pa r1 with
             | some (vs, r2) => some (.arr (v :: vs), r2)
             | none => none
           | none => none) := by
  simp only [parseValCore]
  simp only [if_true]
  rw [if_neg (by decide)]

theorem pvc_obj_step (pv : List Char → Option (JVal × List Char))
    (pa : List Char → Option (List JVal × List Char))
    (pe : List Char → Option ((List Char × JVal) × List Char))
    (po : List Char → Option (List (List Char × JVal) × List Char)) (rest : List Char) :
    parseValCore pv pa pe po ('\x7b' :: rest)
      = (if headIs (skipWs rest) '\x7d' then some (.obj [], (skipWs rest).tail)
         else
           match pe rest with
           | some (kv, r1) =>
             match po r1 with
             | some (fs, r2) => some (.obj (kv :: fs), r2)
             | none => none
           | none => none) := by
  simp only [parseValCore]
  simp only [if_true]
  rw [if_neg (by decide), if_neg (by decide)]

theorem pvc_null_step (pv : List Char → Option (JVal × List Char))
    (pa : List Char → Option (List JVal × List Char))
    (pe : List Char → Option ((List Char × JVal) × List Char))
    (po : List Char → Option (List (List Char × JVal) × List Char)) (rest : List Char) :
    parseValCore pv pa pe po ('n' :: rest)
      = (match rest with
         | 'u' :: 'l' :: 'l' :: r => some (.null, r)
         | _ => none) := by
  simp only [parseValCore]
  simp only [if_true]
  rw [if_neg (by decide), if_neg (by decide), if_neg (by decide)]

theorem pvc_true_step (pv : List Char → Option (JVal × List Char))
    (pa : List Char → Option (List JVal × List Char))
    (pe : List Char → Option ((List Char × JVal) × List Char))
    (po : List Char → Option (List (List Char × JVal) × List Char)) (rest : List Char) :
    parseValCore pv pa pe po ('t' :: rest)
      = (match rest with
         | 'r' :: 'u' :: 'e' :: r => some (.bool true, r)
         | _ => none) := by
  simp only [parseValCore]
  simp only [if_true]
  rw [if_neg (by decide), if_neg (by decide), if_neg (by decide), if_neg (by decide)]

theorem pvc_false_step (pv : List Char → Option (JVal × List Char))
    (pa : List Char → Option (List JVal × List Char))
    (pe : List Char → Option ((List Char × JVal) × List Char))
    (po : List Char → Option (List (List Char × JVal) × List Char)) (rest : List Char) :
    parseValCore pv pa pe po ('f' :: rest)
      = (match rest with
         | 'a' :: 'l' :: 's' :: 'e' :: r => some (.bool false, r)
         | _ => none) := by
  simp only [parseValCore]
  simp only [if_true]
  rw [if_neg (by decide), if_neg (by decide), if_neg (by decide), if_neg (by decide),
    if_neg (by decide)]

theorem pvc_num_step (pv : List Char → Option (JVal × List Char))
    (pa : List Char → Option (List JVal × List Char))
    (pe : List Char → Option ((List Char × JVal) × List Char))
    (po : List Char → Option (List (List Char × JVal) × List Char)) (c : Char)
    (rest : List Char)
    (h1 : ¬c = '"') (h2 : ¬c = '[') (h3 : ¬c = '\x7b') (h4 : ¬c = 'n') (h5 : ¬c = 't')
    (h6 : ¬c = 'f') :
    parseValCore pv pa pe po (c :: rest) = parseNum (c :: rest) := by
  simp only [parseValCore]
  rw [if_neg h1, if_neg h2, if_neg h3, if_neg h4, if_neg h5, if_neg h6]

theorem isDig_not_special {c : Char} (h : isDig c = true) :
    ¬c = '"' ∧ ¬c = '[' ∧ ¬c = '\x7b' ∧ ¬c = 'n' ∧ ¬c = 't' ∧ ¬c = 'f' := by
  have hn : 48 ≤ c.toNat ∧ c.toNat ≤ 57 := by simpa [isDig] using h
  have e1 : ('"' : Char).toNat = 34 := by decide
  have e2 : ('[' : Char).toNat = 91 := by decide
  have e3 : ('\x7b' : Char).toNat = 123 := by decide
  have e4 : ('n' : Char).toNat = 110 := by decide
  have e5 : ('t' : Char).toNat = 116 := by decide
  have e6 : ('f' : Char).toNat = 102 := by decide
  exact ⟨char_ne_of_toNat_ne (by omega), char_ne_of_toNat_ne (by omega),
    char_ne_of_toNat_ne (by omega), char_ne_of_toNat_ne (by omega),
    char_ne_of_toNat_ne (by omega), char_ne_of_toNat_ne (by omega)⟩

theorem numSafe_nil : numSafe [] = true := rfl

theorem numSafe_arrTail (xs : List JVal) (rest : List Char) :
    numSafe (dumpsArrTail xs ++ (']' :: rest)) = true := by
  cases xs with
  | nil =>
    simp only [dumpsArrTail, List.nil_append, numSafe]
    decide
  | cons x xs2 =>
    simp only [dumpsArrTail, List.cons_append, numSafe]
    decide

theorem numSafe_objTail (fs : List (List Char × JVal)) (rest : List Char) :
    numSafe (dumpsObjTail fs ++ ('\x7d' :: rest)) = true := by
  cases fs with
  | nil =>
    simp only [dumpsObjTail, List.nil_append, numSafe]
    decide
  | cons kv fs2 =>
    simp only [dumpsObjTail, List.cons_append, numSafe]
    decide

theorem sizeJ_pos (v : JVal) : 1 ≤ sizeJ v := by
  cases v with
  | arr xs => cases xs <;> simp only [sizeJ] <;> omega
  | obj fs => cases fs <;> simp only [sizeJ] <;> omega
  | null => simp only [sizeJ]; omega
  | bool b => simp only [sizeJ]; omega
  | num n => simp only [sizeJ]; omega
  | str s => simp only [sizeJ]; omega

theorem sizeA_pos (xs : List JVal) : 1 ≤ sizeA xs := by
  cases xs <;> simp only [sizeA] <;> omega

theorem sizeO_pos (fs : List (List Char × JVal)) : 1 ≤ sizeO fs := by
  cases fs <;> simp only [sizeO] <;> omega

theorem parseArrTail_close (f : Nat) (rest : List Char) :
    parseArrTail (f + 1) (']' :: rest) = some ([], rest) := by
  simp only [parseArrTail]
  rw [skipWs_cons_not_ws (by decide)]
  rfl

theorem parseArrTail_comma (f : Nat) (rest : List Char) :
    parseArrTail (f + 1) (',' :: rest)
      = (match parseVal f rest with
         | some (v, r1) =>
           match parseArrTail f r1 with
           | some (vs, r2) => some (v :: vs, r2)
           | none => none
         | none => none) := by
  simp only [parseArrTail]
  rw [skipWs_cons_not_ws (by decide)]
  rfl

theorem parseObjTail_close (f : Nat) (rest : List Char) :
    parseObjTail (f + 1) ('\x7d' :: rest) = some ([], rest) := by
  simp only [parseObjTail]
  rw [skipWs_cons_not_ws (by decide)]
  rfl

theorem parseObjTail_comma (f : Nat) (rest : List Char) :
    parseObjTail (f + 1) (',' :: rest)
      = (match parseEntry f rest with
         | some (kv, r1) =>
           match parseObjTail f r1 with
           | some (fs, r2) => some (kv :: fs, r2)
           | none => none
         | none => none) := by
  simp only [parseObjTail]
  rw [skipWs_cons_not_ws (by decide)]
  rfl

theorem parseEntry_quote (f : Nat) (rest : List Char) :
    parseEntry (f + 1) ('"' :: rest)
      = (match parseStrBody rest with
         | some (k, r1) =>
           match skipWs r1 with
           | ':' :: r2 =>
             match parseVal f r2 with
             | some (v, r3) => some ((k, v), r3)
             | none => none
           | _ => none
         | none => none) := by
  simp only [parseEntry]
  rw [skipWs_cons_not_ws (by decide)]
  rfl

theorem parseEntry_colon (f : Nat) (k body tail : List Char)
    (hb : parseStrBody body = some (k, ':' :: ' ' :: tail)) :
    parseEntry (f + 1) ('"' :: body)
      = (match parseVal f (' ' :: tail) with
         | some (v, r3) => some ((k, v), r3)
         | none => none) := by
  rw [parseEntry_quote, hb]
  dsimp only
  rw [skipWs_cons_not_ws (by decide)]
  rfl

theorem parse_dumps_main : ∀ f : Nat,
    (∀ (v : JVal) (rest : List Char), sizeJ v ≤ f → numSafe rest = true →
      parseVal f (dumps v ++ rest) = some (v, rest))
    ∧ (∀ (xs : List JVal) (rest : List Char), sizeA xs ≤ f → numSafe rest = true →
      parseArrTail f (dumpsArrTail xs ++ (']' :: rest)) = some (xs, rest))
    ∧ (∀ (kv : List Char × JVal) (rest : List Char), 1 + sizeJ kv.2 ≤ f → numSafe rest = true →
      parseEntry f (dumpsEntry kv ++ rest) = some (kv, rest))
    ∧ (∀ (fs : List (List Char × JVal)) (rest : List Char), sizeO fs ≤ f → numSafe rest = true →
      parseObjTail f (dumpsObjTail fs ++ ('\x7d' :: rest)) = some (fs, rest)) := by
  intro f
  induction f using Nat.strong_induction_on with
  | _ f ih =>
    refine ⟨?_, ?_, ?_, ?_⟩
    · intro v rest hsz hns
      cases f with
      | zero =>
        have := sizeJ_pos v
        omega
      | succ g =>
        have hg : g < g + 1 := Nat.lt_succ_self g
        simp only [parseVal]
        rw [skipWs_dumps]
        cases v with
        | null =>
          simp only [dumps, List.cons_append, List.nil_append]
          rw [pvc_null_step]
          rfl
        | bool b =>
          cases b with
          | true =>
            simp only [dumps, List.cons_append, List.nil_append]
            rw [pvc_true_step]
            rfl
          | false =>
            simp only [dumps, List.cons_append, List.nil_append]
            rw [pvc_false_step]
            rfl
        | num n =>
          simp only [dumps]
          cases n with
          | ofNat m =>
            obtain ⟨d, ds, hds⟩ : ∃ d ds, natDigits m = d :: ds := by
              cases hx : natDigits m with
              | nil => exact absurd hx (natDigits_ne_nil m)
              | cons d ds => exact ⟨d, ds, rfl⟩
            have hd : isDig d = true := by
              apply natDigits_all_digits m
              rw [hds]
              exact List.mem_cons_self _ _
            obtain ⟨hq, hbr, hbl, hnn, htt, hff⟩ := isDig_not_special hd
            rw [show dumpInt (Int.ofNat m) = natDigits m from rfl, hds, List.cons_append,
              pvc_num_step _ _ _ _ _ _ hq hbr hbl hnn htt hff, ← List.cons_append, ← hds]
            exact parseNum_natDigits m rest hns
          | negSucc m =>
            rw [show dumpInt (Int.negSucc m) = '-' :: natDigits (m + 1) from rfl,
              List.cons_append,
              pvc_num_step _ _ _ _ _ _ (by decide) (by decide) (by decide) (by decide)
                (by decide) (by decide), ← List.cons_append]
            exact parseNum_dumpInt (Int.negSucc m) rest hns
        | str s =>
          simp only [dumps, List.cons_append, List.append_assoc, List.singleton_append,
            List.nil_append]
          rw [pvc_str_step]
          rw [parseStrBody_escapeStr]
        | arr xs =>
          cases xs with
          | nil =>
            simp only [dumps, List.cons_append, List.nil_append]
            rw [pvc_arr_step]
            rw [skipWs_cons_not_ws (by decide)]
            rw [if_pos (show headIs (']' :: rest) ']' = true from rfl)]
            rfl
          | cons x xs2 =>
            simp only [sizeJ] at hsz
            have hx : sizeJ x ≤ g ∧ sizeA xs2 ≤ g :=
              Nat.max_le.mp (by omega : max (sizeJ x) (sizeA xs2) ≤ g)
            simp only [dumps, List.cons_append, List.append_assoc, List.singleton_append,
              List.nil_append]
            rw [pvc_arr_step]
            obtain ⟨c, t, hct, hw, hbr, _, _, _⟩ := dumps_head x
            rw [skipWs_dumps x]
            rw [if_neg (by rw [hct, List.cons_append]; simp [headIs, hbr])]
            rw [(ih g hg).1 x _ hx.1 (numSafe_arrTail xs2 rest)]
            dsimp only
            rw [(ih g hg).2.1 xs2 rest hx.2 hns]
        | obj fs =>
          cases fs with
          | nil =>
            simp only [dumps, List.cons_append, List.nil_append]
            rw [pvc_obj_step]
            rw [skipWs_cons_not_ws (by decide)]
            rw [if_pos (show headIs ('\x7d' :: rest) '\x7d' = true from rfl)]
            rfl
          | cons kv fs2 =>
            obtain ⟨k, v⟩ := kv
            simp only [sizeJ] at hsz
            have hx : 1 + sizeJ v ≤ g ∧ sizeO fs2 ≤ g := by
              have h2 := Nat.max_le.mp (by omega : max (1 + sizeJ v) (sizeO fs2) ≤ g)
              exact h2
            simp only [dumps, dumpsEntry, List.cons_append, List.append_assoc,
              List.singleton_append, List.nil_append]
            rw [pvc_obj_step]
            rw [skipWs_cons_not_ws (by decide)]
            rw [if_neg (by simp [headIs])]
            have hentry := (ih g hg).2.2.1 (k, v)
              (dumpsObjTail fs2 ++ ('\x7d' :: rest)) (by simpa using hx.1)
              (numSafe_objTail fs2 rest)
            simp only [dumpsEntry, List.cons_append, List.append_assoc,
              List.singleton_append] at hentry
            rw [hentry]
            dsimp only
            rw [(ih g hg).2.2.2 fs2 rest hx.2 hns]
    · intro xs rest hsz hns
      cases f with
      | zero =>
        have := sizeA_pos xs
        omega
      | succ g =>
        have hg : g < g + 1 := Nat.lt_succ_self g
        cases xs with
        | nil =>
          simp only [dumpsArrTail, List.nil_append]
          exact parseArrTail_close g rest
        | cons x xs2 =>
          simp only [sizeA] at hsz
          have hx : sizeJ x ≤ g ∧ sizeA xs2 ≤ g :=
            Nat.max_le.mp (by omega : max (sizeJ x) (sizeA xs2) ≤ g)
          simp only [dumpsArrTail, List.cons_append, List.append_assoc]
          rw [parseArrTail_comma]
          rw [parseVal_cons_ws (by decide)]
          rw [(ih g hg).1 x _ hx.1 (numSafe_arrTail xs2 rest)]
          dsimp only
          rw [(ih g hg).2.1 xs2 rest hx.2 hns]
    · intro kv rest hsz hns
      obtain ⟨k, v⟩ := kv
      cases f with
      | zero => omega
      | succ g =>
        have hg : g < g + 1 := Nat.lt_succ_self g
        have hv : sizeJ v ≤ g := by
          simp only at hsz
          omega
        simp only [dumpsEntry, List.cons_append, List.append_assoc, List.singleton_append]
        rw [parseEntry_colon g k _ _
          (parseStrBody_escapeStr k (':' :: ' ' :: (dumps v ++ rest)))]
        rw [parseVal_cons_ws (by decide)]
        rw [(ih g hg).1 v rest hv hns]
    · intro fs rest hsz hns
      cases f with
      | zero =>
        have := sizeO_pos fs
        omega
      | succ g =>
        have hg : g < g + 1 := Nat.lt_succ_self g
        cases fs with
        | nil =>
          simp only [dumpsObjTail, List.nil_append]
          exact parseObjTail_close g rest
        | cons kv fs2 =>
          obtain ⟨k, v⟩ := kv
          simp only [sizeO] at hsz
          have hx : 1 + sizeJ v ≤ g ∧ sizeO fs2 ≤ g := by
            have h2 := Nat.max_le.mp (by omega : max (1 + sizeJ v) (sizeO fs2) ≤ g)
            exact h2
          simp only [dumpsObjTail, List.cons_append, List.append_assoc]
          rw [parseObjTail_comma]
          rw [parseEntry_cons_ws (by decide)]
          rw [(ih g hg).2.2.1 (k, v) (dumpsObjTail fs2 ++ ('\x7d' :: rest))
            (by simpa using hx.1) (numSafe_objTail fs2 rest)]
          dsimp only
          rw [(ih g hg).2.2.2 fs2 rest hx.2 hns]

theorem sizeA_le_of (xs : List JVal)
    (h : ∀ x ∈ xs, sizeJ x ≤ (dumps x).length + 1) :
    sizeA xs ≤ (dumpsArrTail xs).length + 1 := by
  induction xs with
  | nil =>
    simp only [sizeA, dumpsArrTail, List.length_nil]
    omega
  | cons x xs ih =>
    have hx := h x (List.mem_cons_self _ _)
    have hxs := ih (fun y hy => h y (List.mem_cons_of_mem _ hy))
    simp only [sizeA, dumpsArrTail, List.length_cons, List.length_append]
    have hm : max (sizeJ x) (sizeA xs)
        ≤ (dumps x).length + (dumpsArrTail xs).length + 1 :=
      Nat.max_le.mpr ⟨by omega, by omega⟩
    omega

theorem sizeO_le_of (fs : List (List Char × JVal))
    (h : ∀ kv ∈ fs, sizeJ kv.2 ≤ (dumps kv.2).length + 1) :
    sizeO fs ≤ (dumpsObjTail fs).length + 1 := by
  induction fs with
  | nil =>
    simp only [sizeO, dumpsObjTail, List.length_nil]
    omega
  | cons kv fs ih =>
    obtain ⟨k, v⟩ := kv
    have hx := h (k, v) (List.mem_cons_self _ _)
    have hxs := ih (fun y hy => h y (List.mem_cons_of_mem _ hy))
    simp only at hx
    simp only [sizeO, dumpsObjTail, dumpsEntry, List.length_cons, List.length_append]
    have hm : max (1 + sizeJ v) (sizeO fs)
        ≤ (escapeStr k).length + (dumps v).length + (dumpsObjTail fs).length + 4 :=
      Nat.max_le.mpr ⟨by omega, by omega⟩
    omega

theorem sizeJ_le_length : ∀ v : JVal, sizeJ v ≤ (dumps v).length + 1 := by
  intro v
  induction v using JVal.recAll with
  | hnull =>
    simp only [sizeJ, dumps, List.length_cons, List.length_nil]
    omega
  | hbool b => cases b <;> simp only [sizeJ, dumps, List.length_cons, List.length_nil] <;> omega
  | hnum n => simp only [sizeJ, dumps]; omega
  | hstr s => simp only [sizeJ, dumps]; omega
  | harr xs h =>
    cases xs with
    | nil =>
      simp only [sizeJ, dumps, List.length_cons, List.length_nil]
      omega
    | cons x xs2 =>
      have hx := h x (List.mem_cons_self _ _)
      have ht := sizeA_le_of xs2 (fun y hy => h y (List.mem_cons_of_mem _ hy))
      simp only [sizeJ, dumps, List.length_cons, List.length_append, List.length_nil]
      have hm : max (sizeJ x) (sizeA xs2)
          ≤ (dumps x).length + (dumpsArrTail xs2).length + 1 :=
        Nat.max_le.mpr ⟨by omega, by omega⟩
      omega
  | hobj fs h =>
    cases fs with
    | nil =>
      simp only [sizeJ, dumps, List.length_cons, List.length_nil]
      omega
    | cons kv fs2 =>
      obtain ⟨k, v⟩ := kv
      have hx := h (k, v) (List.mem_cons_self _ _)
      have ht := sizeO_le_of fs2 (fun y hy => h y (List.mem_cons_of_mem _ hy))
      simp only at hx
      simp only [sizeJ, dumps, dumpsEntry, List.length_cons, List.length_append,
        List.length_nil]
      have hm : max (1 + sizeJ v) (sizeO fs2)
          ≤ (escapeStr k).length + (dumps v).length + (dumpsObjTail fs2).length + 4 :=
        Nat.max_le.mpr ⟨by omega, by omega⟩
      omega

theorem jsonLoads_dumps (v : JVal) : jsonLoads (dumps v) = some v := by
  have hmain := (parse_dumps_main ((dumps v).length + 1)).1 v []
    (by have := sizeJ_le_length v; omega) rfl
  rw [List.append_nil] at hmain
  simp only [jsonLoads, hmain]
  rfl

/-- C8: for every field set whose `registration_ids` entries (if present) are
sized values of length at most 1000, building the JSON payload succeeds and
produces `json.dumps` of the field dict, and decoding that JSON text with
`json.loads` yields the original field set, field for field. -/
theorem jsonPayload_roundtrip (fs : Fields)
    (hval : ∀ kv ∈ fs, kv.1 = regIdsKey → ∃ n, pyLen kv.2 = some n ∧ n ≤ 1000) :
    createPayLoad true fs = .ok (.jsonStr (jsonPayloadBody fs))
    ∧ jsonLoads (jsonPayloadBody fs) = some (.obj fs) := by
  constructor
  · have hok : validateFields fs = .ok () :=
      validateFields_ok_of_entries (fun kv hkv hr => by
        obtain ⟨n, hn, hle⟩ := hval kv hkv hr
        simp only [validate_registration_ids, hn]
        rw [if_neg (by omega)])
    simp only [createPayLoad, hok, if_true]
  · simp only [jsonPayloadBody]
    exact jsonLoads_dumps (.obj fs)

theorem jsonPayload_roundtrip_witness :
    (∀ kv ∈ [((("registration_ids").data : List Char),
        JVal.arr [JVal.str (("R1").data)])],
      kv.1 = regIdsKey → ∃ n, pyLen kv.2 = some n ∧ n ≤ 1000)
    ∧ (createPayLoad true
        [((("registration_ids").data : List Char), JVal.arr [JVal.str (("R1").data)])]
        = .ok (.jsonStr (jsonPayloadBody
            [((("registration_ids").data : List Char),
              JVal.arr [JVal.str (("R1").data)])]))
      ∧ jsonLoads (jsonPayloadBody
            [((("registration_ids").data : List Char),
              JVal.arr [JVal.str (("R1").data)])])
          = some (.obj [((("registration_ids").data : List Char),
              JVal.arr [JVal.str (("R1").data)])])) := by
  have hval : ∀ kv ∈ [((("registration_ids").data : List Char),
      JVal.arr [JVal.str (("R1").data)])],
      kv.1 = regIdsKey → ∃ n, pyLen kv.2 = some n ∧ n ≤ 1000 := by
    intro kv hkv hr
    rw [List.mem_singleton] at hkv
    subst hkv
    exact ⟨1, rfl, by omega⟩
  exact ⟨hval, jsonPayload_roundtrip _ hval⟩

theorem handleJSONResponse_no_recipients_witness :
    handleJSONResponse (.obj [(resultsKey, .arr [])]) [] = .error .typeError
    ∧ sendData [] ⟨200, dumps (.obj [(resultsKey, .arr [])])⟩ = .error .typeError :=
  ⟨(handleJSONResponse_no_recipients [] (.obj [(resultsKey, .arr [])]) (.arr [])
      rfl rfl rfl).1,
   (handleJSONResponse_no_recipients [] (.obj [(resultsKey, .arr [])]) (.arr [])
      rfl rfl rfl).2 (dumps (.obj [(resultsKey, .arr [])])) (jsonLoads_dumps _)⟩
